import Mathlib

/-!
Verification of the `discrete` graph-algorithms package (graph.go).

The Go package operates over an abstract `Graph` interface (adjacency
queries, node/edge enumeration, optional `Coster` capability) plus a few
external collaborator primitives (a generic set, a LIFO stack, a
disjoint-set structure, a mutable destination graph and the standard
library sort).  We embed the interface as a structure of query functions,
node identifiers as `Int` (Go `int`), and edge weights as `Rat` (an exact
subfield of the Go `float64` values the algorithms compare; none of the
claims under study depends on rounding, infinities or NaN).

External collaborators are modelled from their interface contracts in the
spec: the generic set as `Finset Int`, the stack as a `List Int` with its
head as the top, Go maps as functions into `Option`, with the Go
missing-key zero value made explicit where the code relies on it.
-/

namespace Discrete

/-- Embedding of the Go `Graph` interface (graph.go lines 10-21): each
method becomes a field.  The optional `Coster` capability obtained in Go
by the type assertion `graph.(Coster)` is embedded as an `Option` field. -/
structure Graph where
  successors : Int → List Int
  isSuccessor : Int → Int → Bool
  predecessors : Int → List Int
  isPredecessor : Int → Int → Bool
  isAdjacent : Int → Int → Bool
  nodeExists : Int → Bool
  degree : Int → Int
  edgeList : List (Int × Int)
  nodeList : List Int
  isDirected : Bool
  coster : Option (Int → Int → Rat)

/-- Embedding of `WeightedEdge` (graph.go lines 58-61). -/
structure WeightedEdge where
  edge : Int × Int
  weight : Rat
deriving DecidableEq, Repr

/-- Embedding of `IsPath` (graph.go lines 128-142).  The Go loop over
consecutive pairs, short-circuiting at the first failing pair, is the
fold below over the list of indices. -/
def IsPath (path : List Int) (graph : Graph) : Bool :=
  if path = [] then
    true
  else if path.length = 1 then
    graph.nodeExists (path.headD 0)
  else
    (List.range (path.length - 1)).all
      (fun i => graph.isSuccessor (path.getD i 0) (path.getD (i + 1) 0))

/-- Modelled from the spec: `UniformCost` is referenced by `Prim` and
`Kruskal` (graph.go lines 154, 204) but defined in a file of the package
that is not part of the sources under study; the spec describes it as the
"uniform-cost fallback (every edge weight = 1)". -/
def UniformCost (_node1 _node2 : Int) : Rat := 1

/-- Embedding of the cost-resolution prelude of `Prim` (graph.go lines
150-156): a nil function argument falls back to the graph's `Coster`
capability when present, else to `UniformCost`. -/
def primResolveCost (graph : Graph) (Cost : Option (Int → Int → Rat)) :
    Int → Int → Rat :=
  match Cost with
  | none =>
    match graph.coster with
    | some cgraph => cgraph
    | none => UniformCost
  | some c => c

/-- Embedding of the cost-resolution prelude of `Kruskal` (graph.go lines
200-206), textually identical to the one in `Prim`. -/
def kruskalResolveCost (graph : Graph) (Cost : Option (Int → Int → Rat)) :
    Int → Int → Rat :=
  match Cost with
  | none =>
    match graph.coster with
    | some cgraph => cgraph
    | none => UniformCost
  | some c => c

/-- Modelled from the spec: the cost precedence rule as the spec words it,
"an explicitly supplied cost function argument overrides the graph's own
Coster capability, which in turn overrides a uniform-cost fallback". -/
def costPrecedenceSpec (graph : Graph) (arg : Option (Int → Int → Rat)) :
    Int → Int → Rat :=
  arg.getD (graph.coster.getD UniformCost)

/-! Dominators and PostDominators (graph.go lines 241-334).

The collaborator `Set` is modelled as `Finset Int` per its contract in
the spec (membership add/remove/contains, cardinality, copy, union,
intersection, equality).  The Go map `map[int]*Set` is modelled as a
function `Int → Option (Finset Int)`; reading a missing key yields the
nil set, whose reads behave as the empty set (`getS`). -/

/-- Go map from node to dominator set. -/
abbrev DomMap := Int → Option (Finset Int)

/-- Reading a set out of the Go map: a missing key gives the nil `*Set`,
whose element reads behave as the empty set. -/
def getS (m : DomMap) (k : Int) : Finset Int := (m k).getD ∅

/-- Go map assignment `m[k] = v`. -/
def updS (m : DomMap) (k : Int) (v : Finset Int) : DomMap :=
  fun x => if x = k then some v else m x

/-- Embedding of the `allNodes` accumulation (graph.go lines 242-247 and
291-296): every node of the node list added into one set. -/
def domAllNodes (graph : Graph) : Finset Int :=
  graph.nodeList.foldl (fun s node => insert node s) ∅

/-- Embedding of the initialization loop of `Dominators` (graph.go lines
249-256): the start node's set is `{start}`, every other listed node's
set is a copy of the full node set. -/
def domInit (start : Int) (graph : Graph) : DomMap :=
  graph.nodeList.foldl
    (fun m node =>
      updS m node (if node = start then {start} else domAllNodes graph))
    (fun _ => none)

/-- Embedding of one node's treatment inside a pass of the `Dominators`
fixed-point loop (graph.go lines 260-281): skip the start node and nodes
with no predecessors, otherwise intersect the predecessors' sets, adjoin
the node itself, and store the result when it differs from the current
one, reporting whether a change happened. -/
def domPassNode (start : Int) (graph : Graph) (m : DomMap) (node : Int) :
    DomMap × Bool :=
  if node = start then (m, false)
  else
    match graph.predecessors node with
    | [] => (m, false)
    | p0 :: rest =>
      let tmp := rest.foldl (fun t pred => t ∩ getS m pred) (getS m p0)
      let dom := insert node tmp
      if m node = some dom then (m, false) else (updS m node dom, true)

/-- Embedding of one full pass of the `Dominators` fixed-point loop
(graph.go lines 259-281): fold the per-node step over the node list,
accumulating the `somethingChanged` flag. -/
def domPass (start : Int) (graph : Graph) (m : DomMap) : DomMap × Bool :=
  graph.nodeList.foldl
    (fun acc node =>
      let r := domPassNode start graph acc.1 node
      (r.1, acc.2 || r.2))
    (m, false)

/-- Embedding of the `Dominators` outer loop (graph.go lines 258-282),
with explicit fuel; `Dominators` supplies enough fuel for the proved
fixed point to be reached, matching the Go loop that runs until a pass
reports no change. -/
def domLoop (start : Int) (graph : Graph) : Nat → DomMap → DomMap
  | 0, m => m
  | fuel + 1, m =>
    let r := domPass start graph m
    if r.2 then domLoop start graph fuel r.1 else r.1

/-- Total size of the dominator sets over the graph's node set; the
termination measure of the fixed-point loop. -/
def domMeasure (graph : Graph) (m : DomMap) : Nat :=
  graph.nodeList.toFinset.sum (fun v => (getS m v).card)

/-- Embedding of `Dominators` (graph.go lines 241-285). -/
def Dominators (start : Int) (graph : Graph) : DomMap :=
  domLoop start graph
    (domMeasure graph (domInit start graph) + 1) (domInit start graph)

/-- Iterating the pass from a given map, front-first; used to state the
claims about the behaviour of the fixed-point loop across passes. -/
def domIterFrom (start : Int) (graph : Graph) (m : DomMap) : Nat → DomMap
  | 0 => m
  | k + 1 => domIterFrom start graph (domPass start graph m).1 k

/-- Embedding of the initialization loop of `PostDominators` (graph.go
lines 298-305), textually identical to the one of `Dominators` with the
end node in place of the start node. -/
def postDomInit (endNode : Int) (graph : Graph) : DomMap :=
  graph.nodeList.foldl
    (fun m node =>
      updS m node (if node = endNode then {endNode} else domAllNodes graph))
    (fun _ => none)

/-- Embedding of one node's treatment inside a pass of `PostDominators`
(graph.go lines 309-329): as in `Dominators` but over successors. -/
def postDomPassNode (endNode : Int) (graph : Graph) (m : DomMap) (node : Int) :
    DomMap × Bool :=
  if node = endNode then (m, false)
  else
    match graph.successors node with
    | [] => (m, false)
    | s0 :: rest =>
      let tmp := rest.foldl (fun t succ => t ∩ getS m succ) (getS m s0)
      let dom := insert node tmp
      if m node = some dom then (m, false) else (updS m node dom, true)

/-- Embedding of one full pass of `PostDominators` (graph.go lines
308-329). -/
def postDomPass (endNode : Int) (graph : Graph) (m : DomMap) : DomMap × Bool :=
  graph.nodeList.foldl
    (fun acc node =>
      let r := postDomPassNode endNode graph acc.1 node
      (r.1, acc.2 || r.2))
    (m, false)

/-- Embedding of the `PostDominators` outer loop (graph.go lines
307-330), with explicit fuel as in `domLoop`. -/
def postDomLoop (endNode : Int) (graph : Graph) : Nat → DomMap → DomMap
  | 0, m => m
  | fuel + 1, m =>
    let r := postDomPass endNode graph m
    if r.2 then postDomLoop endNode graph fuel r.1 else r.1

/-- Embedding of `PostDominators` (graph.go lines 290-334). -/
def PostDominators (endNode : Int) (graph : Graph) : DomMap :=
  postDomLoop endNode graph
    (domMeasure graph (postDomInit endNode graph) + 1)
    (postDomInit endNode graph)

/-- The graph with every edge reversed: successor and predecessor views
exchanged, every listed edge flipped, the node set unchanged. -/
def reverseGraph (g : Graph) : Graph where
  successors := g.predecessors
  isSuccessor := g.isPredecessor
  predecessors := g.successors
  isPredecessor := g.isSuccessor
  isAdjacent := g.isAdjacent
  nodeExists := g.nodeExists
  degree := g.degree
  edgeList := g.edgeList.map (fun e => (e.2, e.1))
  nodeList := g.nodeList
  isDirected := g.isDirected
  coster := g.coster.map (fun c => fun node1 node2 => c node2 node1)

/-- Pointwise inclusion of dominator maps, reading missing keys as the
empty set. -/
def domLe (m' m : DomMap) : Prop := ∀ v, getS m' v ⊆ getS m v

/-- Invariant of the `Dominators` fixed-point loop: every stored set is
inside the full node set. -/
def DomBounded (g : Graph) (m : DomMap) : Prop :=
  ∀ v, getS m v ⊆ domAllNodes g

/-- Invariant of the `Dominators` fixed-point loop: for every candidate
node the value a pass would compute is contained in the stored value, so
stored sets only ever shrink. -/
def DomContr (start : Int) (g : Graph) (m : DomMap) : Prop :=
  ∀ node, node ∈ g.nodeList → node ≠ start →
    ∀ p0 rest, g.predecessors node = p0 :: rest →
      insert node (rest.foldl (fun t pred => t ∩ getS m pred) (getS m p0)) ⊆
        getS m node

/-! Model of the Go standard library `sort.Sort` as called on an
`edgeSorter` by `Prim` and `Kruskal` (graph.go lines 181 and 216).
`sort.Sort` is the classic Go implementation (shipped from Go 1.6 to Go
1.18): an introsort whose small-slice base case is a gap-6 shell pass
followed by an insertion sort, with a heap sort once the depth budget is
exhausted.  The `sort.Interface` calls `Less(i, j)` and `Swap(i, j)`
resolve, for `edgeSorter` (graph.go lines 340-352), to a weight
comparison of the elements at `i` and `j` and to exchanging them.  The
functions below are generic in the element comparison `lt`.  A swap with
an out-of-range index, which would panic in Go but never occurs in the
in-range traffic `sort.Sort` generates, is modelled as a no-op. -/

/-- Element read `data[i]`. -/
def nthE [Inhabited α] (l : List α) (i : Nat) : α := l.getD i default

/-- Element exchange `data.Swap(i, j)`. -/
def swapL [Inhabited α] (l : List α) (i j : Nat) : List α :=
  if i < l.length ∧ j < l.length then
    (l.set i (nthE l j)).set j (nthE l i)
  else l

/-- Go `insertionSort` inner loop: move element `j` left while it is
less than its left neighbour. -/
def insSortInner (lt : α → α → Bool) [Inhabited α] (a : Nat) :
    Nat → List α → List α
  | 0, l => l
  | j + 1, l =>
    if a < j + 1 && lt (nthE l (j + 1)) (nthE l j) then
      insSortInner lt a j (swapL l (j + 1) j)
    else l

/-- Go `insertionSort` outer loop over `i` from `a+1` up to `b-1`,
driven by the remaining iteration count. -/
def insSortOuter (lt : α → α → Bool) [Inhabited α] (a : Nat) :
    Nat → Nat → List α → List α
  | _, 0, l => l
  | i, n + 1, l => insSortOuter lt a (i + 1) n (insSortInner lt a i l)

/-- Go `insertionSort(data, a, b)`. -/
def insertionSortGo (lt : α → α → Bool) [Inhabited α]
    (l : List α) (a b : Nat) : List α :=
  insSortOuter lt a (a + 1) (b - (a + 1)) l

/-- The gap-6 shell pass performed before the insertion sort for slices
of at most 12 elements. -/
def shellLoop (lt : α → α → Bool) [Inhabited α] :
    Nat → Nat → List α → List α
  | _, 0, l => l
  | i, n + 1, l =>
    shellLoop lt (i + 1) n
      (if lt (nthE l i) (nthE l (i - 6)) then swapL l i (i - 6) else l)

/-- Go shell pass `for i := a + 6; i < b; i++ ...`. -/
def shellPassGo (lt : α → α → Bool) [Inhabited α]
    (l : List α) (a b : Nat) : List α :=
  shellLoop lt (a + 6) (b - (a + 6)) l

/-- Go `siftDown` loop; the loop variable `root` strictly increases and
stays below `hi`, so `hi` steps of fuel always suffice. -/
def siftDownLoop (lt : α → α → Bool) [Inhabited α] (hi first : Nat) :
    Nat → Nat → List α → List α
  | 0, _, l => l
  | fuel + 1, root, l =>
    let child := 2 * root + 1
    if child ≥ hi then l
    else
      let child :=
        if child + 1 < hi && lt (nthE l (first + child)) (nthE l (first + child + 1))
        then child + 1 else child
      if !(lt (nthE l (first + root)) (nthE l (first + child))) then l
      else siftDownLoop lt hi first fuel child (swapL l (first + root) (first + child))

/-- Go `siftDown(data, lo, hi, first)`. -/
def siftDownGo (lt : α → α → Bool) [Inhabited α]
    (l : List α) (lo hi first : Nat) : List α :=
  siftDownLoop lt hi first hi lo l

/-- Heap-building loop of Go `heapSort`: `for i := (hi-1)/2; i >= 0; i--`. -/
def buildHeapLoop (lt : α → α → Bool) [Inhabited α] (hi first : Nat) :
    Nat → List α → List α
  | 0, l => siftDownGo lt l 0 hi first
  | i + 1, l => buildHeapLoop lt hi first i (siftDownGo lt l (i + 1) hi first)

/-- Pop loop of Go `heapSort`: `for i := hi - 1; i >= 0; i--`, driven by
the remaining iteration count. -/
def popHeapLoop (lt : α → α → Bool) [Inhabited α] (first : Nat) :
    Nat → List α → List α
  | 0, l => l
  | i + 1, l =>
    popHeapLoop lt first i
      (siftDownGo lt (swapL l first (first + i)) 0 i first)

/-- Go `heapSort(data, a, b)`. -/
def heapSortGo (lt : α → α → Bool) [Inhabited α]
    (l : List α) (a b : Nat) : List α :=
  popHeapLoop lt a (b - a) (buildHeapLoop lt (b - a) a ((b - a - 1) / 2) l)

/-- Go `medianOfThree(data, m1, m0, m2)`. -/
def medianOfThreeGo (lt : α → α → Bool) [Inhabited α]
    (l : List α) (m1 m0 m2 : Nat) : List α :=
  let l := if lt (nthE l m1) (nthE l m0) then swapL l m1 m0 else l
  if lt (nthE l m2) (nthE l m1) then
    let l := swapL l m2 m1
    if lt (nthE l m1) (nthE l m0) then swapL l m1 m0 else l
  else l

/-- First scan of Go `doPivot`: `for ; a < c && data.Less(a, pivot); a++`. -/
def dpScanA (lt : α → α → Bool) [Inhabited α] (l : List α) (pivot c : Nat) :
    Nat → Nat → Nat
  | 0, a => a
  | fuel + 1, a =>
    if a < c && lt (nthE l a) (nthE l pivot) then
      dpScanA lt l pivot c fuel (a + 1)
    else a

/-- Scan `for ; b < c && !data.Less(pivot, b); b++`. -/
def dpScanB (lt : α → α → Bool) [Inhabited α] (l : List α) (pivot c : Nat) :
    Nat → Nat → Nat
  | 0, b => b
  | fuel + 1, b =>
    if b < c && !(lt (nthE l pivot) (nthE l b)) then
      dpScanB lt l pivot c fuel (b + 1)
    else b

/-- Scan `for ; b < c && data.Less(pivot, c-1); c--`. -/
def dpScanC (lt : α → α → Bool) [Inhabited α] (l : List α) (pivot b : Nat) :
    Nat → Nat → Nat
  | 0, c => c
  | fuel + 1, c =>
    if b < c && lt (nthE l pivot) (nthE l (c - 1)) then
      dpScanC lt l pivot b fuel (c - 1)
    else c

/-- Main partition loop of Go `doPivot`; each round the distance between
`b` and `c` shrinks, so `hi` rounds of fuel always suffice. -/
def dpLoop (lt : α → α → Bool) [Inhabited α] (pivot : Nat) :
    Nat → Nat → Nat → List α → Nat × Nat × List α
  | 0, b, c, l => (b, c, l)
  | fuel + 1, b, c, l =>
    let b := dpScanB lt l pivot c c b
    let c := dpScanC lt l pivot b c c
    if b ≥ c then (b, c, l)
    else dpLoop lt pivot fuel (b + 1) (c - 1) (swapL l b (c - 1))

/-- Scan `for ; a < b && !data.Less(b-1, pivot); b--` of the
duplicate-protection loop. -/
def dpScanBDown (lt : α → α → Bool) [Inhabited α] (l : List α) (pivot a : Nat) :
    Nat → Nat → Nat
  | 0, b => b
  | fuel + 1, b =>
    if a < b && !(lt (nthE l (b - 1)) (nthE l pivot)) then
      dpScanBDown lt l pivot a fuel (b - 1)
    else b

/-- Scan `for ; a < b && data.Less(a, pivot); a++` of the
duplicate-protection loop. -/
def dpScanAUp (lt : α → α → Bool) [Inhabited α] (l : List α) (pivot b : Nat) :
    Nat → Nat → Nat
  | 0, a => a
  | fuel + 1, a =>
    if a < b && lt (nthE l a) (nthE l pivot) then
      dpScanAUp lt l pivot b fuel (a + 1)
    else a

/-- Duplicate-protection loop of Go `doPivot`. -/
def dpProtectLoop (lt : α → α → Bool) [Inhabited α] (pivot : Nat) :
    Nat → Nat → Nat → List α → Nat × Nat × List α
  | 0, a, b, l => (a, b, l)
  | fuel + 1, a, b, l =>
    let b := dpScanBDown lt l pivot a b b
    let a := dpScanAUp lt l pivot b b a
    if a ≥ b then (a, b, l)
    else dpProtectLoop lt pivot fuel (a + 1) (b - 1) (swapL l a (b - 1))

/-- Tukey ninther pivot preparation of Go `doPivot` for ranges longer
than 40. -/
def dpNinther (lt : α → α → Bool) [Inhabited α]
    (l : List α) (lo hi m : Nat) : List α :=
  if hi - lo > 40 then
    let s := (hi - lo) / 8
    let l := medianOfThreeGo lt l lo (lo + s) (lo + 2 * s)
    let l := medianOfThreeGo lt l m (m - s) (m + s)
    medianOfThreeGo lt l (hi - 1) (hi - 1 - s) (hi - 1 - 2 * s)
  else l

/-- Duplicate probing of Go `doPivot`: test three points for equality to
the pivot, adjusting `b`, `c` and the data, and decide whether to run the
duplicate-protection loop (`dups > 1`).  The state is `(b, c, data, dups)`. -/
def dpDups (lt : α → α → Bool) [Inhabited α] (pivot m hi : Nat)
    (b c : Nat) (l : List α) : Nat × Nat × List α × Bool :=
  let bcl : Nat × Nat × List α × Nat := (b, c, l, 0)
  let bcl :=
    if !(lt (nthE bcl.2.2.1 pivot) (nthE bcl.2.2.1 (hi - 1))) then
      (bcl.1, bcl.2.1 + 1, swapL bcl.2.2.1 bcl.2.1 (hi - 1), bcl.2.2.2 + 1)
    else bcl
  let bcl :=
    if !(lt (nthE bcl.2.2.1 (bcl.1 - 1)) (nthE bcl.2.2.1 pivot)) then
      (bcl.1 - 1, bcl.2.1, bcl.2.2.1, bcl.2.2.2 + 1)
    else bcl
  let bcl :=
    if !(lt (nthE bcl.2.2.1 m) (nthE bcl.2.2.1 pivot)) then
      (bcl.1 - 1, bcl.2.1, swapL bcl.2.2.1 (bcl.1 - 1) m, bcl.2.2.2 + 1)
    else bcl
  (bcl.1, bcl.2.1, bcl.2.2.1, decide (bcl.2.2.2 > 1))

/-- Go `doPivot(data, lo, hi)`, returning the rearranged data and the
pair `(midlo, midhi)`. -/
def doPivotGo (lt : α → α → Bool) [Inhabited α]
    (l : List α) (lo hi : Nat) : List α × Nat × Nat :=
  let m := (lo + hi) / 2
  let l := dpNinther lt l lo hi m
  let l := medianOfThreeGo lt l lo m (hi - 1)
  let pivot := lo
  let a := dpScanA lt l pivot (hi - 1) (hi - 1) (lo + 1)
  let r := dpLoop lt pivot hi a (hi - 1) l
  let protect := decide (hi - r.2.1 < 5)
  let st :=
    if !protect && decide (hi - r.2.1 < (hi - lo) / 4) then
      dpDups lt pivot m hi r.1 r.2.1 r.2.2
    else (r.1, r.2.1, r.2.2, protect)
  let abl :=
    if st.2.2.2 then dpProtectLoop lt pivot hi (lo + 1) st.1 st.2.2.1
    else (lo + 1, st.1, st.2.2.1)
  (swapL abl.2.2 pivot (abl.2.1 - 1), abl.2.1 - 1, st.2.1)

/-- Go `quickSort(data, a, b, maxDepth)`: the depth budget is decremented
on every round of the partition loop, so it drives the recursion; the
base case for at most 12 elements is the shell pass plus insertion sort. -/
def quickSortGo (lt : α → α → Bool) [Inhabited α] :
    Nat → List α → Nat → Nat → List α
  | 0, l, a, b =>
    if b - a > 12 then heapSortGo lt l a b
    else if b - a > 1 then insertionSortGo lt (shellPassGo lt l a b) a b
    else l
  | d + 1, l, a, b =>
    if b - a > 12 then
      let r := doPivotGo lt l a b
      if r.2.1 - a < b - r.2.2 then
        quickSortGo lt d (quickSortGo lt d r.1 a r.2.1) r.2.2 b
      else
        quickSortGo lt d (quickSortGo lt d r.1 r.2.2 b) a r.2.1
    else if b - a > 1 then insertionSortGo lt (shellPassGo lt l a b) a b
    else l

/-- Go `maxDepth(n)` halving loop, structurally: the first argument is
fuel, always at least the number of halvings since `n / 2 < n`. -/
def depthCountAux : Nat → Nat → Nat
  | 0, _ => 0
  | fuel + 1, n => if n = 0 then 0 else depthCountAux fuel (n / 2) + 1

/-- Go `maxDepth(n)` halving loop: the number of halvings of `n` down to
zero. -/
def depthCount (n : Nat) : Nat := depthCountAux n n

/-- Go `maxDepth(n)`: the depth budget `2 * ceil(lg(n+1))`. -/
def maxDepthGo (n : Nat) : Nat := depthCount n * 2

/-- Go `sort.Sort(data)`: `quickSort(data, 0, n, maxDepth(n))`. -/
def sortSort (lt : α → α → Bool) [Inhabited α] (l : List α) : List α :=
  quickSortGo lt (maxDepthGo l.length) l 0 l.length

/-- Embedding of `edgeSorter.Less` (graph.go lines 346-348) at the level
of elements: compare resolved weights only. -/
def edgeLess (e1 e2 : WeightedEdge) : Bool := decide (e1.weight < e2.weight)

instance : Inhabited WeightedEdge := ⟨⟨(0, 0), 0⟩⟩

/-- Modelled from the spec: a concrete state realizing the `MutableGraph`
collaborator contract, which is consumed but not defined in the sources
under study: nodes, adjacency, assigned edge costs and directedness. -/
structure MGraph where
  nodes : Finset Int
  adj : List (Int × Int)
  costs : List ((Int × Int) × Rat)
  directed : Bool
deriving DecidableEq

/-- Modelled from the spec: `EmptyGraph()` clears the graph of all nodes
and edges. -/
def MGraph.emptyGraph (d : MGraph) : MGraph :=
  { d with nodes := ∅, adj := [], costs := [] }

/-- Modelled from the spec: `SetDirected`, only ever invoked on an empty
graph. -/
def MGraph.setDirected (d : MGraph) (b : Bool) : MGraph :=
  { d with directed := b }

/-- Modelled from the spec: `NodeExists(node)`. -/
def MGraph.nodeExists (d : MGraph) (node : Int) : Bool :=
  decide (node ∈ d.nodes)

/-- Modelled from the spec: `AddNode(id, successors)` adds the node, any
nodes listed in `successors` that do not exist yet, the listed edges, and
the reciprocal edges when the graph is undirected. -/
def MGraph.addNode (d : MGraph) (id : Int) (successors : List Int) : MGraph :=
  { d with
    nodes := insert id (successors.foldl (fun s node => insert node s) d.nodes)
    adj := d.adj ++ successors.map (fun s => (id, s)) ++
      (if d.directed then [] else successors.map (fun s => (s, id))) }

/-- Modelled from the spec: `AddEdge(node1, node2)` creates `node2` when
absent, and the reciprocal edge when the graph is undirected. -/
def MGraph.addEdge (d : MGraph) (node1 node2 : Int) : MGraph :=
  { d with
    nodes := insert node2 d.nodes
    adj := d.adj ++ [(node1, node2)] ++
      (if d.directed then [] else [(node2, node1)]) }

/-- Modelled from the spec: `SetEdgeCost(node1, node2, cost)`; for a
directed graph only `node1 -> node2` is set. -/
def MGraph.setEdgeCost (d : MGraph) (node1 node2 : Int) (cost : Rat) : MGraph :=
  { d with
    costs := ((node1, node2), cost) ::
      (if d.directed then [] else [((node2, node1), cost)]) ++ d.costs }

/-- Modelled from the spec: the disjoint-set collaborator, as a map from
element to representative; `MakeSet` registers a singleton, `Find`
returns the representative (the Go zero value `0` for an unregistered
element), `Union` redirects one representative to the other. -/
structure DisjointSet where
  rep : Int → Option Int

def DisjointSet.makeSet (ds : DisjointSet) (x : Int) : DisjointSet :=
  match ds.rep x with
  | some _ => ds
  | none => ⟨fun y => if y = x then some x else ds.rep y⟩

def DisjointSet.find (ds : DisjointSet) (x : Int) : Int :=
  (ds.rep x).getD 0

def DisjointSet.union (ds : DisjointSet) (r1 r2 : Int) : DisjointSet :=
  ⟨fun y => if ds.rep y = some r2 then some r1 else ds.rep y⟩

/-- The weighted candidate-edge list one iteration of `Prim` builds and
sorts (graph.go lines 174-181): edges whose origin is already in the
destination and whose target is still outstanding, tagged with their
resolved cost, in edge-list enumeration order, then run through
`sort.Sort`. -/
def primSortedEdges (Cost : Int → Int → Rat) (edgeList : List (Int × Int))
    (dst : MGraph) (remainingNodes : Finset Int) : List WeightedEdge :=
  sortSort edgeLess
    ((edgeList.filter
      (fun edge => dst.nodeExists edge.1 && decide (edge.2 ∈ remainingNodes))).map
      (fun edge => WeightedEdge.mk edge (Cost edge.1 edge.2)))

/-- Embedding of the main loop of `Prim` (graph.go lines 173-192), with
fuel equal to the outstanding-node count (each Go iteration that does not
panic removes exactly one outstanding node).  The Go read
`edgeWeights[0]` of an empty candidate list panics: that is the `none`
result. -/
def primLoop (Cost : Int → Int → Rat) (edgeList : List (Int × Int)) :
    Nat → MGraph → Finset Int → Option MGraph
  | 0, dst, remainingNodes =>
    if remainingNodes.card = 0 then some dst else none
  | fuel + 1, dst, remainingNodes =>
    if remainingNodes.card = 0 then some dst
    else
      match primSortedEdges Cost edgeList dst remainingNodes with
      | [] => none
      | myEdge :: _ =>
        let dst :=
          if !(dst.nodeExists myEdge.edge.1) then
            dst.addNode myEdge.edge.1 [myEdge.edge.2]
          else dst.addEdge myEdge.edge.1 myEdge.edge.2
        let dst := dst.setEdgeCost myEdge.edge.1 myEdge.edge.2 myEdge.weight
        primLoop Cost edgeList fuel dst (remainingNodes.erase myEdge.edge.2)

/-- Embedding of `Prim` (graph.go lines 149-194). -/
def Prim (dst : MGraph) (graph : Graph) (Cost : Option (Int → Int → Rat)) :
    Option MGraph :=
  let Cost := primResolveCost graph Cost
  let dst := dst.emptyGraph
  let dst := dst.setDirected false
  match graph.nodeList with
  | [] => some dst
  | n0 :: rest =>
    let dst := dst.addNode n0 []
    let remainingNodes := rest.foldl (fun s node => insert node s) (∅ : Finset Int)
    primLoop Cost graph.edgeList remainingNodes.card dst remainingNodes

/-- The weighted edge list `Kruskal` builds and sorts (graph.go lines
210-216): every listed edge tagged with its resolved cost, in edge-list
enumeration order, then run through `sort.Sort`. -/
def kruskalSortedEdges (graph : Graph) (Cost : Int → Int → Rat) :
    List WeightedEdge :=
  sortSort edgeLess
    (graph.edgeList.map (fun edge => WeightedEdge.mk edge (Cost edge.1 edge.2)))

/-- Embedding of `Kruskal` (graph.go lines 199-234). -/
def Kruskal (dst : MGraph) (graph : Graph) (Cost : Option (Int → Int → Rat)) :
    MGraph :=
  let Cost := kruskalResolveCost graph Cost
  let dst := dst.emptyGraph
  let dst := dst.setDirected false
  let edgeWeights := kruskalSortedEdges graph Cost
  let ds := graph.nodeList.foldl
    (fun ds node => ds.makeSet node) (DisjointSet.mk (fun _ => none))
  (edgeWeights.foldl
    (fun (st : MGraph × DisjointSet) edge =>
      let s1 := st.2.find edge.edge.1
      let s2 := st.2.find edge.edge.2
      if s1 ≠ s2 then
        let ds := st.2.union s1 s2
        let d :=
          if !(st.1.nodeExists edge.edge.1) then
            st.1.addNode edge.edge.1 [edge.edge.2]
          else st.1.addEdge edge.edge.1 edge.edge.2
        (d.setEdgeCost edge.edge.1 edge.edge.2 edge.weight, ds)
      else st)
    (dst, ds)).1

/-- Reachability along listed edges; the meaning of connectivity for a
graph whose edge list reports an undirected edge in both directions. -/
inductive Reaches (graph : Graph) : Int → Int → Prop
  | refl (x : Int) : Reaches graph x x
  | tail {x y z : Int} :
      Reaches graph x y → (y, z) ∈ graph.edgeList → Reaches graph x z

/-! Tarjan's strongly connected components (graph.go lines 72-123).

The traversal closure's captured state becomes an explicit record: the
discovery counter, the traversal stack (head is the top, with its shadow
membership set, the collaborator `Set`), and the Go maps `indices` and
`lowlinks` as functions into `Option Nat` (a missing key reads as the Go
zero value 0, made explicit by `lkN`).  Recursion over successors is
driven by fuel bounding the recursion depth; `Tarjan` supplies more fuel
than the number of listed nodes, which the proofs show is enough.  The
two failure points of the Go code - recursion deeper than the fuel and
`Pop` on an empty stack (whose `v.(int)` assertion on a nil interface
panics) - are the `none` results.  `int(math.Min(float64(a), float64(b)))`
is `min a b`: the indices involved are far below 2^53, where the float64
round trip is exact. -/

/-- Go map update `m[k] = v` for the `indices` and `lowlinks` maps. -/
def updN (m : Int → Option Nat) (k : Int) (v : Nat) : Int → Option Nat :=
  fun x => if x = k then some v else m x

/-- Go map read `m[k]`: a missing key yields the zero value 0. -/
def lkN (m : Int → Option Nat) (k : Int) : Nat := (m k).getD 0

/-- State captured by the `strongconnect` closure (graph.go lines 73-80):
discovery counter, traversal stack with its shadow set, and the
discovery-index and low-link maps. -/
structure TState where
  index : Nat
  vStack : List Int
  stackSet : Finset Int
  indices : Int → Option Nat
  lowlinks : Int → Option Nat

/-- Embedding of the component pop loop (graph.go lines 102-110): pop,
unmark and collect until the root node comes off; popping an empty stack
is the Go panic. -/
def popSCC (node : Int) :
    List Int → Finset Int → List Int →
      Option (List Int × List Int × Finset Int)
  | [], _, _ => none
  | v :: rest, stackSet, scc =>
    if v = node then some (scc ++ [v], rest, stackSet.erase v)
    else popSCC node rest (stackSet.erase v) (scc ++ [v])

/-- Embedding of the successor loop of `strongconnect` (graph.go lines
92-99), parametric in the recursive call `sc`: recurse into unvisited
successors and tighten the low-link, tighten against visited successors
still on the stack, ignore visited successors off the stack. -/
def succLoop (sc : Int → TState → Option (Option (List Int) × TState))
    (node : Int) : List Int → TState → Option TState
  | [], s => some s
  | succ :: rest, s =>
    if (s.indices succ).isSome then
      if succ ∈ s.stackSet then
        let low := updN s.lowlinks node
          (min (lkN s.lowlinks node) (lkN s.lowlinks succ))
        succLoop sc node rest { s with lowlinks := low }
      else succLoop sc node rest s
    else
      match sc succ s with
      | none => none
      | some r =>
        let low := updN r.2.lowlinks node
          (min (lkN r.2.lowlinks node) (lkN r.2.lowlinks succ))
        succLoop sc node rest { r.2 with lowlinks := low }

/-- Entry bookkeeping of `strongconnect` (graph.go lines 85-90): assign
the discovery index and initial low-link, advance the counter, push the
node and mark it on the stack set. -/
def pushState (s : TState) (node : Int) : TState :=
  { index := s.index + 1
    vStack := node :: s.vStack
    stackSet := insert node s.stackSet
    indices := updN s.indices node s.index
    lowlinks := updN s.lowlinks node s.index }

/-- Embedding of `strongconnect` (graph.go lines 84-114): assign the
discovery index and initial low-link, push the node, process successors,
then pop a component when the node's low-link still equals its index,
else return the Go nil (`none` in the result pair). -/
def strongconnect (graph : Graph) : Nat → Int → TState →
    Option (Option (List Int) × TState)
  | 0, _, _ => none
  | fuel + 1, node, s =>
    let s : TState := pushState s node
    match succLoop (strongconnect graph fuel) node (graph.successors node) s with
    | none => none
    | some s2 =>
      if lkN s2.lowlinks node = lkN s2.indices node then
        match popSCC node s2.vStack s2.stackSet [] with
        | none => none
        | some r =>
          some (some r.1, { s2 with vStack := r.2.1, stackSet := r.2.2 })
      else some (none, s2)

/-- Embedding of the driver loop of `Tarjan` (graph.go lines 116-120):
start a traversal at every not-yet-visited listed node, appending the
returned slice to the component list - also when it is the Go nil, which
appends a zero-length component (`[]` here). -/
def tarjanLoop (graph : Graph) (fuel : Nat) :
    List Int → List (List Int) → TState → Option (List (List Int))
  | [], sccs, _ => some sccs
  | n :: rest, sccs, s =>
    if (s.indices n).isSome then tarjanLoop graph fuel rest sccs s
    else
      match strongconnect graph fuel n s with
      | none => none
      | some r => tarjanLoop graph fuel rest (sccs ++ [r.1.getD []]) r.2

/-- Initial traversal state (graph.go lines 73-80). -/
def tarjanInit : TState :=
  ⟨0, [], ∅, fun _ => none, fun _ => none⟩

/-- Embedding of `Tarjan` (graph.go lines 72-123). -/
def Tarjan (graph : Graph) : Option (List (List Int)) :=
  tarjanLoop graph (graph.nodeList.length + 1) graph.nodeList [] tarjanInit

/-- Nodes of the node list not yet assigned a discovery index. -/
def TU (g : Graph) (s : TState) : Nat :=
  (g.nodeList.filter (fun n => (s.indices n).isNone)).length

/-- Well-formed traversal state: the stack has no duplicates, the shadow
set mirrors it, and every stacked node has a discovery index. -/
def TGood (s : TState) : Prop :=
  s.vStack.Nodup ∧
  s.stackSet = s.vStack.toFinset ∧
  (∀ v ∈ s.vStack, (s.indices v).isSome)

/-- Every node on the stack has a low-link at least `B`: the bottommost
discovery index of the enclosing traversal. -/
def TQ (s : TState) (B : Nat) : Prop :=
  ∀ v ∈ s.vStack, B ≤ lkN s.lowlinks v

/-- Successor closure: the graph's successor lists stay inside the node
list. -/
def closedSucc (g : Graph) : Prop :=
  ∀ n ∈ g.nodeList, ∀ m ∈ g.successors n, m ∈ g.nodeList

/-- Contract of a completed `strongconnect` call entered at state `s` on
`node` with stack bound `B`. -/
def SCout (s : TState) (node : Int) (B : Nat)
    (res : Option (List Int)) (s' : TState) : Prop :=
  TGood s' ∧ TQ s' B ∧
  s.index ≤ s'.index ∧
  (∀ v i, s.indices v = some i → s'.indices v = some i) ∧
  s'.indices node = some s.index ∧
  (∀ v, (s.indices v).isSome → s'.lowlinks v = s.lowlinks v) ∧
  B ≤ lkN s'.lowlinks node ∧
  lkN s'.lowlinks node ≤ s.index ∧
  (res.isSome ↔ lkN s'.lowlinks node = s.index) ∧
  (match res with
   | some scc =>
     s'.vStack = s.vStack ∧ s'.stackSet = s.stackSet ∧
     scc.Nodup ∧ (∃ pre, scc = pre ++ [node]) ∧
     (∀ v ∈ scc, s.indices v = none ∧ (s'.indices v).isSome)
   | none =>
     ∃ pre, s'.vStack = pre ++ node :: s.vStack ∧
       (∀ v ∈ pre, s.indices v = none))

/-- Conclusions of a completed successor loop. -/
def SLout (g : Graph) (t : TState) (node : Int) (B : Nat) (t' : TState) : Prop :=
  TGood t' ∧ TQ t' B ∧ t.index ≤ t'.index ∧
  (∀ v i, t.indices v = some i → t'.indices v = some i) ∧
  (∀ v, (t.indices v).isSome → v ≠ node → t'.lowlinks v = t.lowlinks v) ∧
  lkN t'.lowlinks node ≤ lkN t.lowlinks node ∧
  B ≤ lkN t'.lowlinks node ∧
  node ∈ t'.vStack ∧
  TU g t' ≤ TU g t ∧
  (∃ pre, t'.vStack = pre ++ t.vStack ∧ ∀ v ∈ pre, t.indices v = none)

/-- The low-link tightening `lowlinks[node] = min(lowlinks[node],
lowlinks[succ])` (graph.go lines 95 and 97). -/
def tighten (t : TState) (node succ : Int) : TState :=
  let low := updN t.lowlinks node (min (lkN t.lowlinks node) (lkN t.lowlinks succ))
  { t with lowlinks := low }

/-- Concrete two-node graph used by witnesses: nodes 1 and 2, with the
single directed edge from 1 to 2. -/
def wG : Graph where
  successors := fun n => if n = 1 then [2] else []
  isSuccessor := fun n s => n = 1 && s = 2
  predecessors := fun n => if n = 2 then [1] else []
  isPredecessor := fun n p => n = 2 && p = 1
  isAdjacent := fun n m => (n = 1 && m = 2) || (n = 2 && m = 1)
  nodeExists := fun n => n = 1 || n = 2
  degree := fun n => if n = 1 || n = 2 then 1 else 0
  edgeList := [(1, 2)]
  nodeList := [1, 2]
  isDirected := true
  coster := none

def wG2 : Graph where
  successors := fun n => if n = 1 then [2] else if n = 2 then [1] else []
  isSuccessor := fun n s => (n = 1 && s = 2) || (n = 2 && s = 1)
  predecessors := fun n => if n = 1 then [2] else if n = 2 then [1] else []
  isPredecessor := fun n p => (n = 1 && p = 2) || (n = 2 && p = 1)
  isAdjacent := fun n m => (n = 1 && m = 2) || (n = 2 && m = 1)
  nodeExists := fun n => n = 1 || n = 2
  degree := fun n => if n = 1 || n = 2 then 2 else 0
  edgeList := [(1, 2), (2, 1)]
  nodeList := [1, 2]
  isDirected := false
  coster := none

def wGe : Graph where
  successors := fun _ => []
  isSuccessor := fun _ _ => false
  predecessors := fun _ => []
  isPredecessor := fun _ _ => false
  isAdjacent := fun _ _ => false
  nodeExists := fun _ => false
  degree := fun _ => 0
  edgeList := []
  nodeList := []
  isDirected := false
  coster := none

def d0 : MGraph := ⟨∅, [], [], true⟩

def cg3 : Graph where
  successors := fun n => if 0 ≤ n ∧ n ≤ 7 then [n + 100] else []
  isSuccessor := fun n s => decide (0 ≤ n ∧ n ≤ 7 ∧ s = n + 100)
  predecessors := fun n => if 100 ≤ n ∧ n ≤ 107 then [n - 100] else []
  isPredecessor := fun n p => decide (100 ≤ n ∧ n ≤ 107 ∧ p = n - 100)
  isAdjacent := fun n m => decide ((0 ≤ n ∧ n ≤ 7 ∧ m = n + 100) ∨ (100 ≤ n ∧ n ≤ 107 ∧ m = n - 100))
  nodeExists := fun n => decide ((0 ≤ n ∧ n ≤ 7) ∨ (100 ≤ n ∧ n ≤ 107))
  degree := fun n => if (0 ≤ n ∧ n ≤ 7) ∨ (100 ≤ n ∧ n ≤ 107) then 1 else 0
  edgeList := [(0, 100), (1, 101), (2, 102), (3, 103),
               (4, 104), (5, 105), (6, 106), (7, 107)]
  nodeList := [0, 1, 2, 3, 4, 5, 6, 7, 100, 101, 102, 103, 104, 105, 106, 107]
  isDirected := true
  coster := some (fun node1 _ => if node1 = 0 then 5 else if node1 = 7 then 9 else 1)

def d3 : MGraph := ⟨{0, 1, 2, 3, 4, 5, 6, 7}, [], [], false⟩

def r3 : Finset Int := {100, 101, 102, 103, 104, 105, 106, 107}

end Discrete

namespace Discrete

/-- C5: `IsPath` returns true for an empty node sequence; for a length-1
sequence it returns true iff that node exists in the graph; for longer
sequences it returns true iff every element is followed by one of its
successors. -/
theorem isPath_spec (graph : Graph) (path : List Int) :
    (path = [] → IsPath path graph = true) ∧
    (∀ n : Int, path = [n] → IsPath path graph = graph.nodeExists n) ∧
    (2 ≤ path.length →
      (IsPath path graph = true ↔
        ∀ i : Nat, i + 1 < path.length →
          graph.isSuccessor (path.getD i 0) (path.getD (i + 1) 0) = true)) := by
  refine ⟨fun h => by simp [IsPath, h], fun n h => by simp [IsPath, h], fun h => ?_⟩
  have hne : ¬ path = [] := by
    intro hnil; rw [hnil] at h; simp at h
  have hlen : ¬ path.length = 1 := by omega
  simp only [IsPath, if_neg hne, if_neg hlen, List.all_eq_true, List.mem_range]
  constructor
  · intro hall i hi
    exact hall i (by omega)
  · intro hall i hi
    exact hall i (by omega)

/-- Witness for C5 on concrete inputs: a graph containing node 1 with
successor 2, checked on the empty path, a singleton path and a pair. -/
theorem isPath_spec_witness :
    (IsPath [] wG = true) ∧ (IsPath [1] wG = wG.nodeExists 1) ∧
    (IsPath [1, 2] wG = true ↔
      ∀ i : Nat, i + 1 < [1, 2].length →
        wG.isSuccessor ([1, 2].getD i 0) ([1, 2].getD (i + 1) 0) = true) :=
  ⟨(isPath_spec wG []).1 rfl,
   (isPath_spec wG [1]).2.1 1 rfl,
   (isPath_spec wG [1, 2]).2.2 (by decide)⟩

/-- C4: `Prim` and `Kruskal` resolve the cost function by the same
precedence: a non-nil argument is used as is; otherwise the graph's
`Coster` capability when implemented; otherwise the uniform cost 1. -/
theorem cost_precedence (graph : Graph) (Cost : Option (Int → Int → Rat)) :
    primResolveCost graph Cost = costPrecedenceSpec graph Cost ∧
    kruskalResolveCost graph Cost = costPrecedenceSpec graph Cost ∧
    (Cost = none → graph.coster = none →
      primResolveCost graph Cost = UniformCost) := by
  refine ⟨?_, ?_, ?_⟩ <;>
    cases Cost <;> cases hc : graph.coster <;>
      simp [primResolveCost, kruskalResolveCost, costPrecedenceSpec, hc]

/-- Witness for C4 at a concrete graph and argument: with no argument and
no `Coster` capability the resolved cost is the uniform cost. -/
theorem cost_precedence_witness :
    primResolveCost wG none = costPrecedenceSpec wG none ∧
    kruskalResolveCost wG none = costPrecedenceSpec wG none ∧
    ((none : Option (Int → Int → Rat)) = none → wG.coster = none →
      primResolveCost wG none = UniformCost) :=
  cost_precedence wG none

theorem getS_updS_self (m : DomMap) (k : Int) (v : Finset Int) :
    getS (updS m k v) k = v := by simp [getS, updS]

theorem updS_ne (m : DomMap) (k : Int) (v : Finset Int) (x : Int) (h : x ≠ k) :
    updS m k v x = m x := by simp [updS, h]

theorem getS_updS_ne (m : DomMap) (k : Int) (v : Finset Int) (x : Int)
    (h : x ≠ k) : getS (updS m k v) x = getS m x := by
  rw [getS, updS_ne m k v x h, getS]

theorem mem_domAllNodes_aux (x : Int) :
    ∀ (l : List Int) (s : Finset Int),
      x ∈ l.foldl (fun s node => insert node s) s ↔ x ∈ l ∨ x ∈ s := by
  intro l
  induction l with
  | nil => simp
  | cons a l ih =>
    intro s
    rw [List.foldl_cons, ih (insert a s)]
    simp [Finset.mem_insert, List.mem_cons]
    tauto

theorem mem_domAllNodes (g : Graph) (x : Int) :
    x ∈ domAllNodes g ↔ x ∈ g.nodeList := by
  simp [domAllNodes, mem_domAllNodes_aux]

theorem domLe_refl (m : DomMap) : domLe m m := fun _ => subset_rfl

theorem domLe_trans {a b c : DomMap} (h1 : domLe a b) (h2 : domLe b c) :
    domLe a c := fun v => (h1 v).trans (h2 v)

theorem foldInter_subset (m : DomMap) :
    ∀ (rest : List Int) (t : Finset Int),
      rest.foldl (fun a p => a ∩ getS m p) t ⊆ t := by
  intro rest
  induction rest with
  | nil => intro t; exact subset_rfl
  | cons q rest ih =>
    intro t
    exact (ih (t ∩ getS m q)).trans Finset.inter_subset_left

theorem foldInter_mono {m' m : DomMap} (h : domLe m' m) :
    ∀ (rest : List Int) {t' t : Finset Int}, t' ⊆ t →
      rest.foldl (fun a p => a ∩ getS m' p) t' ⊆
        rest.foldl (fun a p => a ∩ getS m p) t := by
  intro rest
  induction rest with
  | nil => intro t' t ht; exact ht
  | cons q rest ih =>
    intro t' t ht
    exact ih (Finset.inter_subset_inter ht (h q))

theorem domPassNode_spec (start : Int) (g : Graph) (m : DomMap) (node : Int)
    (hn : node ∈ g.nodeList) (hB : DomBounded g m) (hC : DomContr start g m) :
    domLe (domPassNode start g m node).1 m ∧
    DomBounded g (domPassNode start g m node).1 ∧
    DomContr start g (domPassNode start g m node).1 ∧
    (∀ v, v ≠ node → (domPassNode start g m node).1 v = m v) ∧
    ((domPassNode start g m node).2 = true →
      getS (domPassNode start g m node).1 node ⊂ getS m node) ∧
    ((domPassNode start g m node).2 = false →
      (domPassNode start g m node).1 = m) := by
  by_cases hs : node = start
  · rw [domPassNode, if_pos hs]
    exact ⟨domLe_refl m, hB, hC, fun v _ => rfl, fun h => absurd h Bool.false_ne_true, fun _ => rfl⟩
  · rw [domPassNode, if_neg hs]
    cases hp : g.predecessors node with
    | nil =>
      exact ⟨domLe_refl m, hB, hC, fun v _ => rfl, fun h => absurd h Bool.false_ne_true, fun _ => rfl⟩
    | cons p0 rest =>
      simp only
      have hsub : insert node (rest.foldl (fun t pred => t ∩ getS m pred) (getS m p0))
          ⊆ getS m node := hC node hn hs p0 rest hp
      by_cases he : m node =
          some (insert node (rest.foldl (fun t pred => t ∩ getS m pred) (getS m p0)))
      · rw [if_pos he]
        exact ⟨domLe_refl m, hB, hC, fun v _ => rfl, fun h => absurd h Bool.false_ne_true, fun _ => rfl⟩
      · rw [if_neg he]
        have hle : domLe
            (updS m node (insert node (rest.foldl (fun t pred => t ∩ getS m pred) (getS m p0)))) m := by
          intro v
          by_cases hv : v = node
          · subst hv; rw [getS_updS_self]; exact hsub
          · rw [getS_updS_ne m node _ v hv]
        refine ⟨hle, ?_, ?_, ?_, ?_, ?_⟩
        · intro v
          by_cases hv : v = node
          · subst hv
            rw [getS_updS_self]
            intro x hx
            rcases Finset.mem_insert.mp hx with h1 | h2
            · subst h1; exact (mem_domAllNodes g x).mpr hn
            · exact hB p0 ((foldInter_subset m rest (getS m p0)) h2)
          · rw [getS_updS_ne m node _ v hv]; exact hB v
        · intro j hj hjs q0 qrest hq
          have hmono :
              insert j (qrest.foldl
                (fun t pred => t ∩ getS (updS m node (insert node (rest.foldl (fun t pred => t ∩ getS m pred) (getS m p0)))) pred)
                (getS (updS m node (insert node (rest.foldl (fun t pred => t ∩ getS m pred) (getS m p0)))) q0)) ⊆
              insert j (qrest.foldl (fun t pred => t ∩ getS m pred) (getS m q0)) :=
            Finset.insert_subset_insert _ (foldInter_mono hle qrest (hle q0))
          by_cases hv : j = node
          · subst hv
            rw [getS_updS_self]
            refine hmono.trans ?_
            have hlists := hq.symm.trans hp
            injection hlists with h1 h2
            subst h1; subst h2
            exact subset_rfl
          · rw [getS_updS_ne m node _ j hv]
            exact hmono.trans (hC j hj hjs q0 qrest hq)
        · intro v hv; exact updS_ne m node _ v hv
        · intro _
          rw [getS_updS_self]
          refine Finset.ssubset_iff_subset_ne.mpr ⟨hsub, ?_⟩
          intro hEq
          cases hm : m node with
          | none =>
            have h0 : getS m node = ∅ := by rw [getS, hm]; rfl
            rw [h0] at hEq
            have hmem : node ∈ insert node
                (rest.foldl (fun t pred => t ∩ getS m pred) (getS m p0)) :=
              Finset.mem_insert_self _ _
            rw [hEq] at hmem
            simp at hmem
          | some s =>
            apply he
            rw [hm]
            have : getS m node = s := by rw [getS, hm]; rfl
            rw [this] at hEq
            rw [hEq]
        · intro hfalse; simp at hfalse

theorem domMeasure_le {g : Graph} {m' m : DomMap} (h : domLe m' m) :
    domMeasure g m' ≤ domMeasure g m :=
  Finset.sum_le_sum (fun i _ => Finset.card_le_card (h i))

theorem domMeasure_lt {g : Graph} {m' m : DomMap} {k : Int} (h : domLe m' m)
    (hk : k ∈ g.nodeList) (hs : getS m' k ⊂ getS m k) :
    domMeasure g m' < domMeasure g m :=
  Finset.sum_lt_sum (fun i _ => Finset.card_le_card (h i))
    ⟨k, List.mem_toFinset.mpr hk, Finset.card_lt_card hs⟩

theorem domPassFold_spec (start : Int) (g : Graph) :
    ∀ (l : List Int), (∀ x ∈ l, x ∈ g.nodeList) →
      ∀ (m : DomMap) (b : Bool), DomBounded g m → DomContr start g m →
        domLe (l.foldl (fun acc node =>
            let r := domPassNode start g acc.1 node
            (r.1, acc.2 || r.2)) (m, b)).1 m ∧
        DomBounded g (l.foldl (fun acc node =>
            let r := domPassNode start g acc.1 node
            (r.1, acc.2 || r.2)) (m, b)).1 ∧
        DomContr start g (l.foldl (fun acc node =>
            let r := domPassNode start g acc.1 node
            (r.1, acc.2 || r.2)) (m, b)).1 ∧
        ((l.foldl (fun acc node =>
            let r := domPassNode start g acc.1 node
            (r.1, acc.2 || r.2)) (m, b)).2 = false →
          (l.foldl (fun acc node =>
            let r := domPassNode start g acc.1 node
            (r.1, acc.2 || r.2)) (m, b)).1 = m ∧ b = false) ∧
        (b = false → (l.foldl (fun acc node =>
            let r := domPassNode start g acc.1 node
            (r.1, acc.2 || r.2)) (m, b)).2 = true →
          domMeasure g (l.foldl (fun acc node =>
            let r := domPassNode start g acc.1 node
            (r.1, acc.2 || r.2)) (m, b)).1 < domMeasure g m) := by
  intro l
  induction l with
  | nil =>
    intro _ m b hB hC
    refine ⟨domLe_refl m, hB, hC, fun h => ⟨rfl, h⟩, fun hb ht => ?_⟩
    rw [List.foldl_nil] at ht
    rw [hb] at ht
    simp at ht
  | cons a l ih =>
    intro hmem m b hB hC
    have ha : a ∈ g.nodeList := hmem a (List.mem_cons_self a l)
    have hmem' : ∀ x ∈ l, x ∈ g.nodeList := fun x hx => hmem x (List.mem_cons_of_mem a hx)
    obtain ⟨sLe, sB, sC, _sFrame, sStrict, sId⟩ := domPassNode_spec start g m a ha hB hC
    obtain ⟨iLe, iB, iC, iId, iStrict⟩ :=
      ih hmem' (domPassNode start g m a).1 (b || (domPassNode start g m a).2) sB sC
    rw [List.foldl_cons]
    refine ⟨domLe_trans iLe sLe, iB, iC, ?_, ?_⟩
    · intro hf
      obtain ⟨h1, h2⟩ := iId hf
      rcases Bool.or_eq_false_iff.mp h2 with ⟨hb, hr⟩
      exact ⟨h1.trans (sId hr), hb⟩
    · intro hb ht
      cases hr : (domPassNode start g m a).2 with
      | true =>
        have hlt1 : domMeasure g (domPassNode start g m a).1 < domMeasure g m :=
          domMeasure_lt sLe ha (sStrict hr)
        exact lt_of_le_of_lt (domMeasure_le iLe) hlt1
      | false =>
        have hid := sId hr
        have hacc : ((domPassNode start g m a).1, b || (domPassNode start g m a).2)
            = (m, false) := by rw [hid, hr, hb]; rfl
        rw [hacc] at ht ⊢
        obtain ⟨_, _, _, _, jStrict⟩ := ih hmem' m false hB hC
        exact jStrict rfl ht

theorem domPass_spec (start : Int) (g : Graph) (m : DomMap)
    (hB : DomBounded g m) (hC : DomContr start g m) :
    domLe (domPass start g m).1 m ∧
    DomBounded g (domPass start g m).1 ∧
    DomContr start g (domPass start g m).1 ∧
    ((domPass start g m).2 = false → (domPass start g m).1 = m) ∧
    ((domPass start g m).2 = true →
      domMeasure g (domPass start g m).1 < domMeasure g m) := by
  obtain ⟨h1, h2, h3, h4, h5⟩ :=
    domPassFold_spec start g g.nodeList (fun x hx => hx) m false hB hC
  exact ⟨h1, h2, h3, fun hf => (h4 hf).1, h5 rfl⟩

theorem domInit_at (start : Int) (g : Graph) (node : Int) :
    ∀ (l : List Int) (m : DomMap),
      (node ∈ l ∨ m node = some (if node = start then {start} else domAllNodes g)) →
      (l.foldl (fun m n =>
          updS m n (if n = start then {start} else domAllNodes g)) m) node =
        some (if node = start then {start} else domAllNodes g) := by
  intro l
  induction l with
  | nil =>
    intro m h
    rcases h with h | h
    · simp at h
    · exact h
  | cons a l ih =>
    intro m h
    rw [List.foldl_cons]
    by_cases hv : node = a
    · refine ih _ (Or.inr ?_)
      subst hv
      simp [updS]
    · refine ih _ ?_
      rcases h with h | h
      · rcases List.mem_cons.mp h with h1 | h1
        · exact absurd h1 hv
        · exact Or.inl h1
      · exact Or.inr (by rw [updS_ne _ _ _ _ hv]; exact h)

theorem domInit_mem (start : Int) (g : Graph) (node : Int)
    (h : node ∈ g.nodeList) :
    domInit start g node =
      some (if node = start then {start} else domAllNodes g) :=
  domInit_at start g node g.nodeList (fun _ => none) (Or.inl h)

theorem domInit_not_mem (start : Int) (g : Graph) (node : Int)
    (h : ¬ node ∈ g.nodeList) : domInit start g node = none := by
  unfold domInit
  have : ∀ (l : List Int) (m : DomMap), (∀ x ∈ l, x ∈ g.nodeList) →
      m node = none →
      (l.foldl (fun m n =>
        updS m n (if n = start then {start} else domAllNodes g)) m) node = none := by
    intro l
    induction l with
    | nil => intro m _ hm; exact hm
    | cons a l ih =>
      intro m hl hm
      rw [List.foldl_cons]
      refine ih _ (fun x hx => hl x (List.mem_cons_of_mem a hx)) ?_
      have hv : node ≠ a := fun hc => h (hc ▸ hl a (List.mem_cons_self a l))
      rw [updS_ne _ _ _ _ hv]
      exact hm
  exact this g.nodeList (fun _ => none) (fun x hx => hx) rfl

theorem domInit_bounded (start : Int) (g : Graph) :
    DomBounded g (domInit start g) := by
  intro v
  by_cases h : v ∈ g.nodeList
  · rw [getS, domInit_mem start g v h]
    by_cases hv : v = start
    · subst hv
      intro x hx
      simp only [if_pos, Option.getD_some, Finset.mem_singleton] at hx
      subst hx
      exact (mem_domAllNodes g _).mpr h
    · simp only [if_neg hv, Option.getD_some]
      exact subset_rfl
  · rw [getS, domInit_not_mem start g v h]
    intro x hx
    simp at hx

theorem domInit_contr (start : Int) (g : Graph) :
    DomContr start g (domInit start g) := by
  intro node hn hs p0 rest _hp
  have hv : getS (domInit start g) node = domAllNodes g := by
    rw [getS, domInit_mem start g node hn, if_neg hs]
    rfl
  rw [hv]
  intro x hx
  rcases Finset.mem_insert.mp hx with h1 | h2
  · subst h1; exact (mem_domAllNodes g x).mpr hn
  · exact domInit_bounded start g p0
      ((foldInter_subset (domInit start g) rest (getS (domInit start g) p0)) h2)

/- invariants carried along the iterated passes -/
theorem domIterFrom_inv (start : Int) (g : Graph) :
    ∀ (k : Nat) (m : DomMap), DomBounded g m → DomContr start g m →
      DomBounded g (domIterFrom start g m k) ∧
      DomContr start g (domIterFrom start g m k) := by
  intro k
  induction k with
  | zero => intro m hB hC; exact ⟨hB, hC⟩
  | succ k ih =>
    intro m hB hC
    obtain ⟨_, pB, pC, _, _⟩ := domPass_spec start g m hB hC
    exact ih _ pB pC

theorem domIterFrom_succ_pass (start : Int) (g : Graph) :
    ∀ (k : Nat) (m : DomMap),
      domIterFrom start g m (k + 1) =
        (domPass start g (domIterFrom start g m k)).1 := by
  intro k
  induction k with
  | zero => intro m; rfl
  | succ k ih =>
    intro m
    show domIterFrom start g (domPass start g m).1 (k + 1) = _
    rw [ih]
    rfl

theorem domIterFrom_exists_fix (start : Int) (g : Graph) :
    ∀ (B : Nat) (m : DomMap), DomBounded g m → DomContr start g m →
      domMeasure g m ≤ B →
      ∃ N, (domPass start g (domIterFrom start g m N)).2 = false := by
  intro B
  induction B with
  | zero =>
    intro m hB hC hle
    refine ⟨0, ?_⟩
    by_contra hne
    have ht : (domPass start g m).2 = true := by
      cases h : (domPass start g m).2 with
      | true => rfl
      | false => exact absurd h hne
    obtain ⟨_, _, _, _, hstrict⟩ := domPass_spec start g m hB hC
    have := hstrict ht
    omega
  | succ B ih =>
    intro m hB hC hle
    cases h : (domPass start g m).2 with
    | false => exact ⟨0, h⟩
    | true =>
      obtain ⟨_, pB, pC, _, hstrict⟩ := domPass_spec start g m hB hC
      have hlt := hstrict h
      obtain ⟨N, hN⟩ := ih (domPass start g m).1 pB pC (by omega)
      exact ⟨N + 1, hN⟩

theorem domLoop_fix (start : Int) (g : Graph) :
    ∀ (fuel : Nat) (m : DomMap), DomBounded g m → DomContr start g m →
      domMeasure g m < fuel →
      (domPass start g (domLoop start g fuel m)).2 = false := by
  intro fuel
  induction fuel with
  | zero => intro m _ _ h; omega
  | succ fuel ih =>
    intro m hB hC hlt
    show (domPass start g
      (let r := domPass start g m
        if r.2 then domLoop start g fuel r.1 else r.1)).2 = false
    obtain ⟨_, pB, pC, hId, hstrict⟩ := domPass_spec start g m hB hC
    cases h : (domPass start g m).2 with
    | false =>
      have hres : (if (domPass start g m).2 then
          domLoop start g fuel (domPass start g m).1
          else (domPass start g m).1) = m := by
        rw [h, if_neg (by decide)]
        exact hId h
      rw [hres]
      exact h
    | true =>
      have hres : (if (domPass start g m).2 then
          domLoop start g fuel (domPass start g m).1
          else (domPass start g m).1) =
          domLoop start g fuel (domPass start g m).1 := by
        rw [h, if_pos rfl]
      rw [hres]
      exact ih _ pB pC (by have := hstrict h; omega)

/-- C6: the `Dominators` fixed-point loop terminates: across passes every
node's dominator set only shrinks (with respect to inclusion) from the
full-node-set initialization, a pass with no changes is reached after
finitely many passes, and the map `Dominators` returns is such a
fixpoint. -/
theorem dominators_terminate (start : Int) (graph : Graph) :
    (∀ (k : Nat) (v : Int),
      getS (domIterFrom start graph (domInit start graph) (k + 1)) v ⊆
        getS (domIterFrom start graph (domInit start graph) k) v) ∧
    (∃ N, (domPass start graph
      (domIterFrom start graph (domInit start graph) N)).2 = false) ∧
    (domPass start graph (Dominators start graph)).2 = false := by
  have hB := domInit_bounded start graph
  have hC := domInit_contr start graph
  refine ⟨?_, ?_, ?_⟩
  · intro k v
    obtain ⟨kB, kC⟩ := domIterFrom_inv start graph k (domInit start graph) hB hC
    obtain ⟨hle, _, _, _, _⟩ := domPass_spec start graph _ kB kC
    rw [domIterFrom_succ_pass]
    exact hle v
  · exact domIterFrom_exists_fix start graph
      (domMeasure graph (domInit start graph)) (domInit start graph) hB hC le_rfl
  · exact domLoop_fix start graph _ (domInit start graph) hB hC (by omega)

/- start-node preservation -/
theorem domPassNode_start (start : Int) (g : Graph) (m : DomMap) (node : Int) :
    (domPassNode start g m node).1 start = m start := by
  by_cases hs : node = start
  · rw [domPassNode, if_pos hs]
  · rw [domPassNode, if_neg hs]
    cases hp : g.predecessors node with
    | nil => rfl
    | cons p0 rest =>
      simp only
      by_cases he : m node =
          some (insert node (rest.foldl (fun t pred => t ∩ getS m pred) (getS m p0)))
      · rw [if_pos he]
      · rw [if_neg he]
        exact updS_ne m node _ start (fun hc => hs hc.symm)

theorem domPassFold_start (start : Int) (g : Graph) :
    ∀ (l : List Int) (acc : DomMap × Bool),
      (l.foldl (fun acc node =>
        let r := domPassNode start g acc.1 node
        (r.1, acc.2 || r.2)) acc).1 start = acc.1 start := by
  intro l
  induction l with
  | nil => intro acc; rfl
  | cons a l ih =>
    intro acc
    rw [List.foldl_cons]
    rw [ih]
    exact domPassNode_start start g acc.1 a

theorem domPass_start (start : Int) (g : Graph) (m : DomMap) :
    (domPass start g m).1 start = m start :=
  domPassFold_start start g g.nodeList (m, false)

theorem domIterFrom_start (start : Int) (g : Graph) :
    ∀ (k : Nat) (m : DomMap), domIterFrom start g m k start = m start := by
  intro k
  induction k with
  | zero => intro m; rfl
  | succ k ih =>
    intro m
    show domIterFrom start g (domPass start g m).1 k start = m start
    rw [ih, domPass_start]

theorem domLoop_start (start : Int) (g : Graph) :
    ∀ (fuel : Nat) (m : DomMap), domLoop start g fuel m start = m start := by
  intro fuel
  induction fuel with
  | zero => intro m; rfl
  | succ fuel ih =>
    intro m
    show (if (domPass start g m).2 then
      domLoop start g fuel (domPass start g m).1
      else (domPass start g m).1) start = m start
    cases h : (domPass start g m).2 with
    | false => rw [if_neg (by decide)]; exact domPass_start start g m
    | true => rw [if_pos rfl, ih, domPass_start]

/-- C7: when the start node is listed, `Dominators` maps it to exactly
the singleton set containing the start node, and no pass of the
fixed-point loop ever modifies that entry. -/
theorem dominators_start_singleton (start : Int) (graph : Graph)
    (h : start ∈ graph.nodeList) :
    Dominators start graph start = some {start} ∧
    (∀ k : Nat,
      domIterFrom start graph (domInit start graph) k start = some {start}) := by
  have hinit : domInit start graph start = some {start} := by
    rw [domInit_mem start graph start h, if_pos rfl]
  constructor
  · rw [Dominators, domLoop_start, hinit]
  · intro k
    rw [domIterFrom_start, hinit]

theorem dominators_start_singleton_witness :
    Dominators 1 wG 1 = some {1} ∧
    (∀ k : Nat, domIterFrom 1 wG (domInit 1 wG) k 1 = some {1}) :=
  dominators_start_singleton 1 wG (by decide)

theorem postDomLoop_eq_domLoop (endNode : Int) (g : Graph) :
    ∀ (fuel : Nat) (m : DomMap),
      postDomLoop endNode g fuel m = domLoop endNode (reverseGraph g) fuel m := by
  intro fuel
  induction fuel with
  | zero => intro m; rfl
  | succ n ih =>
    intro m
    have hp : domPass endNode (reverseGraph g) m = postDomPass endNode g m := rfl
    simp only [postDomLoop, domLoop, hp]
    cases h : (postDomPass endNode g m).2 <;> simp [h, ih]

/-- C9: `PostDominators` is exactly `Dominators` run on the graph with
every edge reversed (successor and predecessor views exchanged). -/
theorem postDominators_eq_dominators_reverse (endNode : Int) (g : Graph) :
    PostDominators endNode g = Dominators endNode (reverseGraph g) := by
  have hinit : postDomInit endNode g = domInit endNode (reverseGraph g) := rfl
  rw [PostDominators, Dominators, postDomLoop_eq_domLoop, hinit]
  have hmeas : domMeasure g (domInit endNode (reverseGraph g)) =
      domMeasure (reverseGraph g) (domInit endNode (reverseGraph g)) := rfl
  rw [hmeas]

theorem setPair_perm [Inhabited α] (x : α) :
    ∀ (t : List α) (j : Nat), j < t.length →
      List.Perm (t.getD j default :: t.set j x) (x :: t) := by
  intro t
  induction t with
  | nil => intro j h; simp at h
  | cons y s ih =>
    intro j h
    cases j with
    | zero => exact List.Perm.swap x y s
    | succ j =>
      have hj : j < s.length := by simpa using h
      exact ((List.Perm.swap y (s.getD j default) (s.set j x)).trans
        ((ih j hj).cons y)).trans (List.Perm.swap x y s)

theorem swapL_perm [Inhabited α] :
    ∀ (l : List α) (i j : Nat), List.Perm (swapL l i j) l := by
  intro l
  induction l with
  | nil => intro i j; rw [swapL]; simp
  | cons x t ih =>
    intro i j
    rw [swapL]
    by_cases h : i < (x :: t).length ∧ j < (x :: t).length
    · rw [if_pos h]
      obtain ⟨hi, hj⟩ := h
      cases i with
      | zero =>
        cases j with
        | zero => simp [nthE]
        | succ j =>
          have hj' : j < t.length := by simpa using hj
          show List.Perm (((x :: t).set 0 (nthE (x :: t) (j+1))).set (j+1) (nthE (x :: t) 0)) (x :: t)
          have e1 : nthE (x :: t) (j+1) = t.getD j default := rfl
          have e2 : nthE (x :: t) 0 = x := rfl
          rw [e1, e2]
          show List.Perm (t.getD j default :: t.set j x) (x :: t)
          exact setPair_perm x t j hj'
      | succ i =>
        have hi' : i < t.length := by simpa using hi
        cases j with
        | zero =>
          show List.Perm (((x :: t).set (i+1) (nthE (x :: t) 0)).set 0 (nthE (x :: t) (i+1))) (x :: t)
          have e1 : nthE (x :: t) 0 = x := rfl
          have e2 : nthE (x :: t) (i+1) = t.getD i default := rfl
          rw [e1, e2]
          show List.Perm (t.getD i default :: t.set i x) (x :: t)
          exact setPair_perm x t i hi'
        | succ j =>
          have hj' : j < t.length := by simpa using hj
          show List.Perm (x :: ((t.set i (nthE (x :: t) (j+1))).set j (nthE (x :: t) (i+1)))) (x :: t)
          have e1 : nthE (x :: t) (j+1) = nthE t j := rfl
          have e2 : nthE (x :: t) (i+1) = nthE t i := rfl
          rw [e1, e2]
          refine List.Perm.cons x ?_
          have := ih i j
          rw [swapL, if_pos ⟨hi', hj'⟩] at this
          exact this
    · rw [if_neg h]

theorem insSortInner_perm [Inhabited α] (lt : α → α → Bool) (a : Nat) :
    ∀ (j : Nat) (l : List α), List.Perm (insSortInner lt a j l) l := by
  intro j
  induction j with
  | zero => intro l; rfl
  | succ j ih =>
    intro l
    rw [insSortInner]
    by_cases h : (a < j + 1 && lt (nthE l (j + 1)) (nthE l j)) = true
    · rw [if_pos h]
      exact (ih (swapL l (j+1) j)).trans (swapL_perm l (j+1) j)
    · rw [if_neg h]

theorem insSortOuter_perm [Inhabited α] (lt : α → α → Bool) (a : Nat) :
    ∀ (n i : Nat) (l : List α), List.Perm (insSortOuter lt a i n l) l := by
  intro n
  induction n with
  | zero => intro i l; rfl
  | succ n ih =>
    intro i l
    exact (ih (i+1) (insSortInner lt a i l)).trans (insSortInner_perm lt a i l)

theorem insertionSortGo_perm [Inhabited α] (lt : α → α → Bool)
    (l : List α) (a b : Nat) : List.Perm (insertionSortGo lt l a b) l :=
  insSortOuter_perm lt a (b - (a + 1)) (a + 1) l

theorem shellLoop_perm [Inhabited α] (lt : α → α → Bool) :
    ∀ (n i : Nat) (l : List α), List.Perm (shellLoop lt i n l) l := by
  intro n
  induction n with
  | zero => intro i l; rfl
  | succ n ih =>
    intro i l
    refine (ih (i+1) _).trans ?_
    by_cases h : lt (nthE l i) (nthE l (i - 6)) = true
    · rw [if_pos h]; exact swapL_perm l i (i - 6)
    · rw [if_neg h]

theorem shellPassGo_perm [Inhabited α] (lt : α → α → Bool)
    (l : List α) (a b : Nat) : List.Perm (shellPassGo lt l a b) l :=
  shellLoop_perm lt (b - (a + 6)) (a + 6) l

theorem siftDownLoop_perm [Inhabited α] (lt : α → α → Bool) (hi first : Nat) :
    ∀ (fuel root : Nat) (l : List α),
      List.Perm (siftDownLoop lt hi first fuel root l) l := by
  intro fuel
  induction fuel with
  | zero => intro root l; rfl
  | succ fuel ih =>
    intro root l
    rw [siftDownLoop]
    by_cases h1 : 2 * root + 1 ≥ hi
    · rw [if_pos h1]
    · rw [if_neg h1]
      simp only
      by_cases h2 : (!(lt (nthE l (first + root))
          (nthE l (first + (if (2 * root + 1) + 1 < hi &&
            lt (nthE l (first + (2 * root + 1))) (nthE l (first + (2 * root + 1) + 1))
            then (2 * root + 1) + 1 else 2 * root + 1))))) = true
      · rw [if_pos h2]
      · rw [if_neg h2]
        exact (ih _ _).trans (swapL_perm l _ _)

theorem siftDownGo_perm [Inhabited α] (lt : α → α → Bool)
    (l : List α) (lo hi first : Nat) :
    List.Perm (siftDownGo lt l lo hi first) l :=
  siftDownLoop_perm lt hi first hi lo l

theorem buildHeapLoop_perm [Inhabited α] (lt : α → α → Bool) (hi first : Nat) :
    ∀ (i : Nat) (l : List α), List.Perm (buildHeapLoop lt hi first i l) l := by
  intro i
  induction i with
  | zero => intro l; exact siftDownGo_perm lt l 0 hi first
  | succ i ih =>
    intro l
    exact (ih _).trans (siftDownGo_perm lt l (i+1) hi first)

theorem popHeapLoop_perm [Inhabited α] (lt : α → α → Bool) (first : Nat) :
    ∀ (i : Nat) (l : List α), List.Perm (popHeapLoop lt first i l) l := by
  intro i
  induction i with
  | zero => intro l; rfl
  | succ i ih =>
    intro l
    exact (ih _).trans
      ((siftDownGo_perm lt _ 0 i first).trans (swapL_perm l first (first + i)))

theorem heapSortGo_perm [Inhabited α] (lt : α → α → Bool)
    (l : List α) (a b : Nat) : List.Perm (heapSortGo lt l a b) l :=
  (popHeapLoop_perm lt a (b - a) _).trans
    (buildHeapLoop_perm lt (b - a) a ((b - a - 1) / 2) l)

theorem medianOfThreeGo_perm [Inhabited α] (lt : α → α → Bool)
    (l : List α) (m1 m0 m2 : Nat) :
    List.Perm (medianOfThreeGo lt l m1 m0 m2) l := by
  rw [medianOfThreeGo]
  have step : ∀ (t : List α) (i j : Nat),
      List.Perm (if lt (nthE t i) (nthE t j) then swapL t i j else t) t := by
    intro t i j
    by_cases h : lt (nthE t i) (nthE t j) = true
    · rw [if_pos h]; exact swapL_perm t i j
    · rw [if_neg h]
  simp only
  by_cases h2 : lt (nthE (if lt (nthE l m1) (nthE l m0) then swapL l m1 m0 else l) m2)
      (nthE (if lt (nthE l m1) (nthE l m0) then swapL l m1 m0 else l) m1) = true
  · rw [if_pos h2]
    exact ((step _ m1 m0).trans (swapL_perm _ m2 m1)).trans (step l m1 m0)
  · rw [if_neg h2]
    exact step l m1 m0

theorem dpLoop_perm [Inhabited α] (lt : α → α → Bool) (pivot : Nat) :
    ∀ (fuel b c : Nat) (l : List α),
      List.Perm (dpLoop lt pivot fuel b c l).2.2 l := by
  intro fuel
  induction fuel with
  | zero => intro b c l; rfl
  | succ fuel ih =>
    intro b c l
    rw [dpLoop]
    split
    · exact List.Perm.refl l
    · exact (ih _ _ _).trans (swapL_perm l _ _)

theorem dpProtectLoop_perm [Inhabited α] (lt : α → α → Bool) (pivot : Nat) :
    ∀ (fuel a b : Nat) (l : List α),
      List.Perm (dpProtectLoop lt pivot fuel a b l).2.2 l := by
  intro fuel
  induction fuel with
  | zero => intro a b l; rfl
  | succ fuel ih =>
    intro a b l
    rw [dpProtectLoop]
    split
    · exact List.Perm.refl l
    · exact (ih _ _ _).trans (swapL_perm l _ _)

theorem dpNinther_perm [Inhabited α] (lt : α → α → Bool)
    (l : List α) (lo hi m : Nat) :
    List.Perm (dpNinther lt l lo hi m) l := by
  rw [dpNinther]
  by_cases h : hi - lo > 40
  · rw [if_pos h]
    exact ((medianOfThreeGo_perm lt _ _ _ _).trans
      (medianOfThreeGo_perm lt _ _ _ _)).trans (medianOfThreeGo_perm lt _ _ _ _)
  · rw [if_neg h]

theorem dpDups_perm [Inhabited α] (lt : α → α → Bool) (pivot m hi : Nat)
    (b c : Nat) (l : List α) :
    List.Perm (dpDups lt pivot m hi b c l).2.2.1 l := by
  rw [dpDups]
  simp only
  split
  all_goals split
  all_goals split
  all_goals simp only
  all_goals first
    | exact List.Perm.refl l
    | exact swapL_perm _ _ _
    | exact (swapL_perm _ _ _).trans (swapL_perm _ _ _)

theorem doPivotGo_perm [Inhabited α] (lt : α → α → Bool)
    (l : List α) (lo hi : Nat) :
    List.Perm (doPivotGo lt l lo hi).1 l := by
  rw [doPivotGo]
  simp only
  have base : List.Perm
      (dpLoop lt lo hi
        (dpScanA lt (medianOfThreeGo lt (dpNinther lt l lo hi ((lo + hi) / 2)) lo
            ((lo + hi) / 2) (hi - 1)) lo (hi - 1) (hi - 1) (lo + 1))
        (hi - 1)
        (medianOfThreeGo lt (dpNinther lt l lo hi ((lo + hi) / 2)) lo
          ((lo + hi) / 2) (hi - 1))).2.2 l :=
    (dpLoop_perm lt lo _ _ _ _).trans
      ((medianOfThreeGo_perm lt _ _ _ _).trans (dpNinther_perm lt l lo hi _))
  split
  all_goals split
  all_goals refine (swapL_perm _ _ _).trans ?_
  · exact (dpProtectLoop_perm lt lo _ _ _ _).trans
      ((dpDups_perm lt lo _ _ _ _ _).trans base)
  · exact (dpDups_perm lt lo _ _ _ _ _).trans base
  · exact (dpProtectLoop_perm lt lo _ _ _ _).trans base
  · exact base

theorem quickSortGo_perm [Inhabited α] (lt : α → α → Bool) :
    ∀ (d : Nat) (l : List α) (a b : Nat),
      List.Perm (quickSortGo lt d l a b) l := by
  intro d
  induction d with
  | zero =>
    intro l a b
    rw [quickSortGo]
    split
    · exact heapSortGo_perm lt l a b
    · split
      · exact (insertionSortGo_perm lt _ a b).trans (shellPassGo_perm lt l a b)
      · exact List.Perm.refl l
  | succ d ih =>
    intro l a b
    rw [quickSortGo]
    split
    · simp only
      split
      · exact (ih _ _ _).trans ((ih _ _ _).trans (doPivotGo_perm lt l a b))
      · exact (ih _ _ _).trans ((ih _ _ _).trans (doPivotGo_perm lt l a b))
    · split
      · exact (insertionSortGo_perm lt _ a b).trans (shellPassGo_perm lt l a b)
      · exact List.Perm.refl l

theorem sortSort_perm [Inhabited α] (lt : α → α → Bool) (l : List α) :
    List.Perm (sortSort lt l) l :=
  quickSortGo_perm lt (maxDepthGo l.length) l 0 l.length

theorem sortSort_length [Inhabited α] (lt : α → α → Bool) (l : List α) :
    (sortSort lt l).length = l.length :=
  (sortSort_perm lt l).length_eq

theorem sortSort_mem [Inhabited α] (lt : α → α → Bool) (l : List α) (x : α) :
    x ∈ sortSort lt l ↔ x ∈ l :=
  (sortSort_perm lt l).mem_iff

/-- C8: when the source graph's node list is empty, `Prim` clears the
destination, makes it undirected and returns without adding any node or
edge and without failing. -/
theorem prim_empty_source (dst : MGraph) (graph : Graph)
    (Cost : Option (Int → Int → Rat)) (h : graph.nodeList = []) :
    Prim dst graph Cost = some ⟨∅, [], [], false⟩ := by
  rw [Prim]
  simp only [h]
  rfl

theorem prim_empty_source_witness :
    Prim d0 wGe none = some ⟨∅, [], [], false⟩ :=
  prim_empty_source d0 wGe none (by decide)

set_option maxRecDepth 4000 in
/-- C3 evaluation at the failing input: on an eight-edge list whose
resolved weights are 5,1,1,1,1,1,1,9, the sort performed by `Kruskal`
and by each `Prim` iteration returns the equal-weight edges out of
enumeration order: the seventh listed edge (6,106) comes out before the
second listed edge (1,101) of the same weight 1, so the sort is not
stable on weight. -/
theorem sort_not_stable_on_weight :
    kruskalSortedEdges cg3 (kruskalResolveCost cg3 none) =
      [⟨(6, 106), 1⟩, ⟨(1, 101), 1⟩, ⟨(2, 102), 1⟩, ⟨(3, 103), 1⟩,
       ⟨(4, 104), 1⟩, ⟨(5, 105), 1⟩, ⟨(0, 100), 5⟩, ⟨(7, 107), 9⟩] ∧
    primSortedEdges (primResolveCost cg3 none) cg3.edgeList d3 r3 =
      [⟨(6, 106), 1⟩, ⟨(1, 101), 1⟩, ⟨(2, 102), 1⟩, ⟨(3, 103), 1⟩,
       ⟨(4, 104), 1⟩, ⟨(5, 105), 1⟩, ⟨(0, 100), 5⟩, ⟨(7, 107), 9⟩] ∧
    cg3.edgeList = [(0, 100), (1, 101), (2, 102), (3, 103),
                    (4, 104), (5, 105), (6, 106), (7, 107)] := by
  refine ⟨by decide, by decide, by decide⟩

theorem reaches_crossing (g : Graph) (A : Finset Int) :
    ∀ {u v : Int}, Reaches g u v → u ∈ A → v ∉ A →
      ∃ e ∈ g.edgeList, e.1 ∈ A ∧ e.2 ∉ A := by
  intro u v h
  induction h with
  | refl => intro hu hv; exact absurd hu hv
  | @tail y z _hxy hyz ih =>
    intro hu hv
    by_cases hy : y ∈ A
    · exact ⟨(y, z), hyz, hy, hv⟩
    · exact ih hu hy

theorem primLoop_total (g : Graph) (Cost : Int → Int → Rat) (n0 : Int)
    (hwf : ∀ e ∈ g.edgeList, e.1 ∈ g.nodeList ∧ e.2 ∈ g.nodeList)
    (hconn : ∀ v ∈ g.nodeList, Reaches g n0 v) :
    ∀ (fuel : Nat) (dst : MGraph) (remaining : Finset Int),
      fuel = remaining.card →
      (∀ x ∈ dst.nodes, x ∉ remaining) →
      (∀ x ∈ g.nodeList, x ∈ dst.nodes ∨ x ∈ remaining) →
      (∀ x ∈ remaining, x ∈ g.nodeList) →
      n0 ∈ dst.nodes →
      ∃ m, primLoop Cost g.edgeList fuel dst remaining = some m := by
  intro fuel
  induction fuel with
  | zero =>
    intro dst remaining hfuel _ _ _ _
    rw [primLoop, if_pos hfuel.symm]
    exact ⟨dst, rfl⟩
  | succ fuel ih =>
    intro dst remaining hfuel hdisj hcover hsub hn0
    rw [primLoop]
    have hcard : ¬ remaining.card = 0 := by omega
    rw [if_neg hcard]
    obtain ⟨v, hv⟩ := Finset.card_pos.mp (by omega : 0 < remaining.card)
    have hvnl : v ∈ g.nodeList := hsub v hv
    have hvnotdst : v ∉ dst.nodes := fun hc => hdisj v hc hv
    obtain ⟨e, he, he1, he2⟩ :=
      reaches_crossing g dst.nodes (hconn v hvnl) hn0 hvnotdst
    have he2r : e.2 ∈ remaining := by
      rcases hcover e.2 (hwf e he).2 with h | h
      · exact absurd h he2
      · exact h
    have hmem : WeightedEdge.mk e (Cost e.1 e.2) ∈
        primSortedEdges Cost g.edgeList dst remaining := by
      rw [primSortedEdges, sortSort_mem]
      refine List.mem_map_of_mem _ (List.mem_filter.mpr ⟨he, ?_⟩)
      simp [MGraph.nodeExists, he1, he2r]
    cases hs : primSortedEdges Cost g.edgeList dst remaining with
    | nil =>
      rw [hs] at hmem
      exact absurd hmem (List.not_mem_nil _)
    | cons myEdge restE =>
      have hmy : myEdge ∈ primSortedEdges Cost g.edgeList dst remaining := by
        rw [hs]; exact List.mem_cons_self myEdge restE
      rw [primSortedEdges, sortSort_mem] at hmy
      obtain ⟨e', he'mem, he'eq⟩ := List.mem_map.mp hmy
      obtain ⟨he'list, he'cond⟩ := List.mem_filter.mp he'mem
      have hedge : myEdge.edge = e' := by rw [← he'eq]
      have hcond1 : dst.nodeExists e'.1 = true := by
        cases hB : dst.nodeExists e'.1 with
        | true => rfl
        | false => rw [hB] at he'cond; simp at he'cond
      have hcond2 : e'.2 ∈ remaining := by
        have := he'cond
        rw [Bool.and_eq_true] at this
        exact of_decide_eq_true this.2
      have h1mem : myEdge.edge.1 ∈ dst.nodes := by
        rw [hedge]
        exact of_decide_eq_true hcond1
      have h2mem : myEdge.edge.2 ∈ remaining := by rw [hedge]; exact hcond2
      have hifcond : (!(dst.nodeExists myEdge.edge.1)) = false := by
        rw [hedge, hcond1]; rfl
      simp only [hifcond, Bool.false_eq_true, if_false]
      refine ih ((dst.addEdge myEdge.edge.1 myEdge.edge.2).setEdgeCost
          myEdge.edge.1 myEdge.edge.2 myEdge.weight)
        (remaining.erase myEdge.edge.2) ?_ ?_ ?_ ?_ ?_
      · rw [Finset.card_erase_of_mem h2mem]; omega
      · intro x hx
        simp only [MGraph.setEdgeCost, MGraph.addEdge, Finset.mem_insert] at hx
        rcases hx with hx | hx
        · subst hx; exact Finset.not_mem_erase _ _
        · intro hc
          exact hdisj x hx (Finset.mem_of_mem_erase hc)
      · intro x hxl
        rcases hcover x hxl with hx | hx
        · left
          simp only [MGraph.setEdgeCost, MGraph.addEdge, Finset.mem_insert]
          exact Or.inr hx
        · by_cases hxe : x = myEdge.edge.2
          · left
            simp only [MGraph.setEdgeCost, MGraph.addEdge, Finset.mem_insert]
            exact Or.inl hxe
          · right
            exact Finset.mem_erase.mpr ⟨hxe, hx⟩
      · intro x hx
        exact hsub x (Finset.mem_of_mem_erase hx)
      · simp only [MGraph.setEdgeCost, MGraph.addEdge, Finset.mem_insert]
        exact Or.inr hn0

/-- C2: on a connected source graph with a non-empty, duplicate-free
node list whose edges stay inside the node set, every iteration of
Prim's main loop finds at least one candidate edge, so the read of the
first sorted candidate never indexes out of range and `Prim` returns a
result (the out-of-range branch is unreachable). -/
theorem prim_connected_no_panic (dst : MGraph) (graph : Graph)
    (Cost : Option (Int → Int → Rat))
    (hnodup : graph.nodeList.Nodup)
    (hne : graph.nodeList ≠ [])
    (hwf : ∀ e ∈ graph.edgeList, e.1 ∈ graph.nodeList ∧ e.2 ∈ graph.nodeList)
    (hconn : ∀ u ∈ graph.nodeList, ∀ v ∈ graph.nodeList, Reaches graph u v) :
    ∃ m, Prim dst graph Cost = some m := by
  rw [Prim]
  cases hnl : graph.nodeList with
  | nil => exact absurd hnl hne
  | cons n0 rest =>
    simp only
    have hmemr : ∀ x : Int,
        x ∈ rest.foldl (fun s node => insert node s) (∅ : Finset Int) ↔ x ∈ rest := by
      intro x
      rw [mem_domAllNodes_aux]
      simp
    have hn0nl : n0 ∈ graph.nodeList := by rw [hnl]; exact List.mem_cons_self _ _
    refine primLoop_total graph (primResolveCost graph Cost) n0 hwf
      (fun v hvl => hconn n0 hn0nl v hvl) _ _ _ rfl ?_ ?_ ?_ ?_
    · intro x hx
      simp only [MGraph.addNode, List.foldl_nil, Finset.mem_insert] at hx
      rcases hx with hx | hx
      · subst hx
        intro hc
        rw [hmemr] at hc
        rw [hnl] at hnodup
        exact (List.nodup_cons.mp hnodup).1 hc
      · exact absurd hx (Finset.not_mem_empty x)
    · intro x hxl
      rw [hnl] at hxl
      rcases List.mem_cons.mp hxl with hx | hx
      · left
        simp only [MGraph.addNode, List.foldl_nil, Finset.mem_insert]
        exact Or.inl hx
      · right
        rw [hmemr]
        exact hx
    · intro x hx
      rw [hmemr] at hx
      rw [hnl]
      exact List.mem_cons_of_mem _ hx
    · simp only [MGraph.addNode, List.foldl_nil, Finset.mem_insert]
      exact Or.inl trivial

/-- Witness for C2: the two-node undirected graph with both edge
directions listed, all hypotheses discharged concretely. -/
theorem prim_connected_no_panic_witness :
    ∃ m, Prim d0 wG2 none = some m := by
  refine prim_connected_no_panic d0 wG2 none (by decide) (by decide)
    (by decide) ?_
  intro u hu v hv
  have h12 : Reaches wG2 1 2 :=
    Reaches.tail (Reaches.refl 1) (by decide)
  have h21 : Reaches wG2 2 1 :=
    Reaches.tail (Reaches.refl 2) (by decide)
  have hu2 : u = 1 ∨ u = 2 := by
    rcases List.mem_cons.mp hu with h | h
    · exact Or.inl h
    · simp at h; exact Or.inr h
  have hv2 : v = 1 ∨ v = 2 := by
    rcases List.mem_cons.mp hv with h | h
    · exact Or.inl h
    · simp at h; exact Or.inr h
  rcases hu2 with hu2 | hu2 <;> rcases hv2 with hv2 | hv2 <;> subst hu2 <;> subst hv2
  · exact Reaches.refl 1
  · exact h12
  · exact h21
  · exact Reaches.refl 2

theorem updN_self (m : Int → Option Nat) (k : Int) (v : Nat) :
    updN m k v k = some v := by simp [updN]

theorem updN_ne (m : Int → Option Nat) (k : Int) (v : Nat) (x : Int)
    (h : x ≠ k) : updN m k v x = m x := by simp [updN, h]

theorem lkN_updN_self (m : Int → Option Nat) (k : Int) (v : Nat) :
    lkN (updN m k v) k = v := by simp [lkN, updN]

theorem lkN_updN_ne (m : Int → Option Nat) (k : Int) (v : Nat) (x : Int)
    (h : x ≠ k) : lkN (updN m k v) x = lkN m x := by
  rw [lkN, updN_ne m k v x h, lkN]

theorem filter_length_mono (p q : Int → Bool)
    (h : ∀ x, q x = true → p x = true) :
    ∀ (l : List Int), (l.filter q).length ≤ (l.filter p).length := by
  intro l
  induction l with
  | nil => exact le_refl 0
  | cons a l ih =>
    rw [List.filter_cons, List.filter_cons]
    cases hq : q a with
    | true =>
      rw [h a hq]
      simpa using ih
    | false =>
      cases hp : p a with
      | true => simp only [if_pos]; simp; omega
      | false => simpa using ih

theorem filter_length_strict (p q : Int → Bool)
    (h : ∀ x, q x = true → p x = true) :
    ∀ (l : List Int) (x : Int), x ∈ l → p x = true → q x = false →
      (l.filter q).length < (l.filter p).length := by
  intro l
  induction l with
  | nil => intro x hx; simp at hx
  | cons a l ih =>
    intro x hx hp hq
    rw [List.filter_cons, List.filter_cons]
    rcases List.mem_cons.mp hx with hxa | hxl
    · subst hxa
      have hmono := filter_length_mono p q h l
      simp [hp, hq]
      omega
    · cases hqa : q a with
      | true =>
        have hpa := h a hqa
        have hlt := ih x hxl hp hq
        simp [hpa, hqa]
        omega
      | false =>
        cases hpa : p a with
        | true =>
          have hlt := ih x hxl hp hq
          simp [hpa, hqa]
          omega
        | false =>
          have hlt := ih x hxl hp hq
          simp [hpa, hqa]
          omega

theorem popSCC_spec (node : Int) :
    ∀ (pre : List Int) (rest : List Int) (ss : Finset Int) (acc : List Int),
      node ∉ pre →
      (pre ++ node :: rest).Nodup →
      ss = (pre ++ node :: rest).toFinset →
      popSCC node (pre ++ node :: rest) ss acc =
        some (acc ++ pre ++ [node], rest, rest.toFinset) := by
  intro pre
  induction pre with
  | nil =>
    intro rest ss acc _ hnd hss
    rw [List.nil_append] at hnd hss
    rw [List.nil_append, popSCC, if_pos rfl]
    have hnode : node ∉ rest.toFinset := by
      rw [List.mem_toFinset]
      exact (List.nodup_cons.mp hnd).1
    rw [hss, List.toFinset_cons, Finset.erase_insert hnode]
    simp
  | cons a pre ih =>
    intro rest ss acc hnp hnd hss
    have hannode : ¬ a = node := fun hc => hnp (hc ▸ List.mem_cons_self a pre)
    rw [List.cons_append, popSCC, if_neg hannode]
    have hanotin : a ∉ (pre ++ node :: rest).toFinset := by
      rw [List.mem_toFinset]
      exact (List.nodup_cons.mp (by rwa [List.cons_append] at hnd)).1
    have herase : ss.erase a = (pre ++ node :: rest).toFinset := by
      rw [hss, List.cons_append, List.toFinset_cons, Finset.erase_insert hanotin]
    have := ih rest (ss.erase a) (acc ++ [a])
      (fun hc => hnp (List.mem_cons_of_mem a hc))
      (List.nodup_cons.mp (by rwa [List.cons_append] at hnd)).2 herase
    rw [this]
    simp

theorem TU_mono (g : Graph) {s t : TState}
    (h : ∀ v i, s.indices v = some i → t.indices v = some i) :
    TU g t ≤ TU g s := by
  apply filter_length_mono
  intro x hx
  cases hs : s.indices x with
  | none => simp
  | some i =>
    rw [h x i hs] at hx
    simp at hx

theorem SLout_comp (g : Graph) (t t1 t' : TState) (node : Int) (B : Nat)
    (h1index : t.index ≤ t1.index)
    (h1idx : ∀ v i, t.indices v = some i → t1.indices v = some i)
    (h1low : ∀ v, (t.indices v).isSome → v ≠ node → t1.lowlinks v = t.lowlinks v)
    (h1node : lkN t1.lowlinks node ≤ lkN t.lowlinks node)
    (h1stk : ∃ pre, t1.vStack = pre ++ t.vStack ∧ ∀ v ∈ pre, t.indices v = none)
    (h1TU : TU g t1 ≤ TU g t)
    (h2 : SLout g t1 node B t') :
    SLout g t node B t' := by
  obtain ⟨hG, hQ, hI, hX, hL, hN, hB2, hM, hU, pre2, hstk2, hfresh2⟩ := h2
  obtain ⟨pre1, hstk1, hfresh1⟩ := h1stk
  refine ⟨hG, hQ, h1index.trans hI, fun v i hv => hX v i (h1idx v i hv),
    ?_, ?_, hB2, hM, hU.trans h1TU, pre2 ++ pre1, ?_, ?_⟩
  · intro v hv hvn
    have hv1 : (t1.indices v).isSome := by
      cases hs : t.indices v with
      | none => rw [hs] at hv; simp at hv
      | some i => rw [h1idx v i hs]; rfl
    rw [hL v hv1 hvn, h1low v hv hvn]
  · exact hN.trans h1node
  · rw [hstk2, hstk1, List.append_assoc]
  · intro v hv
    rcases List.mem_append.mp hv with hv | hv
    · have := hfresh2 v hv
      cases hs : t.indices v with
      | none => rfl
      | some i =>
        rw [h1idx v i hs] at this
        exact absurd this (by simp)
    · exact hfresh1 v hv

theorem tighten_vStack (t : TState) (node succ : Int) :
    (tighten t node succ).vStack = t.vStack := rfl

theorem tighten_indices (t : TState) (node succ : Int) :
    (tighten t node succ).indices = t.indices := rfl

theorem tighten_index (t : TState) (node succ : Int) :
    (tighten t node succ).index = t.index := rfl

theorem tighten_low_node (t : TState) (node succ : Int) :
    lkN (tighten t node succ).lowlinks node =
      min (lkN t.lowlinks node) (lkN t.lowlinks succ) := by
  simp [tighten, lkN, updN]

theorem tighten_low_ne (t : TState) (node succ v : Int) (h : v ≠ node) :
    (tighten t node succ).lowlinks v = t.lowlinks v := by
  simp [tighten, updN, h]

theorem tighten_good (t : TState) (node succ : Int) (h : TGood t) :
    TGood (tighten t node succ) := h

theorem tighten_TQ (t : TState) (node succ : Int) (B : Nat) (hQ : TQ t B)
    (hB : B ≤ min (lkN t.lowlinks node) (lkN t.lowlinks succ)) :
    TQ (tighten t node succ) B := by
  intro v hv
  rw [tighten_vStack] at hv
  by_cases hvn : v = node
  · subst hvn
    rw [tighten_low_node]
    exact hB
  · rw [lkN, tighten_low_ne t node succ v hvn, ← lkN]
    exact hQ v hv

theorem tighten_TU (g : Graph) (t : TState) (node succ : Int) :
    TU g (tighten t node succ) = TU g t := rfl

theorem succLoop_spec (g : Graph) (B F : Nat)
    (sc : Int → TState → Option (Option (List Int) × TState))
    (hsc : ∀ n t, TGood t → TQ t B → B ≤ t.index → t.indices n = none →
      n ∈ g.nodeList → TU g t ≤ F →
      ∃ r, sc n t = some r ∧ SCout t n B r.1 r.2) :
    ∀ (succs : List Int) (node : Int) (t : TState),
      (∀ x ∈ succs, x ∈ g.nodeList) →
      TGood t → TQ t B → B ≤ t.index →
      (t.indices node).isSome → node ∈ t.vStack →
      B ≤ lkN t.lowlinks node →
      TU g t ≤ F →
      ∃ t', succLoop sc node succs t = some t' ∧ SLout g t node B t' := by
  intro succs
  induction succs with
  | nil =>
    intro node t _ hG hQ hBi hvis hstk hBlow hTU
    refine ⟨t, rfl, hG, hQ, le_refl _, fun v i hv => hv, fun v _ _ => rfl,
      le_refl _, hBlow, hstk, le_refl _, [], rfl,
      fun v hv => absurd hv (List.not_mem_nil v)⟩
  | cons succ rest ihr =>
    intro node t hsubs hG hQ hBi hvis hstk hBlow hTU
    have hsubs' : ∀ x ∈ rest, x ∈ g.nodeList :=
      fun x hx => hsubs x (List.mem_cons_of_mem succ hx)
    rw [succLoop]
    by_cases hvs : (t.indices succ).isSome = true
    · rw [if_pos hvs]
      by_cases hss : succ ∈ t.stackSet
      · rw [if_pos hss]
        have hsuccstk : succ ∈ t.vStack := by
          rw [hG.2.1] at hss
          exact List.mem_toFinset.mp hss
        have hminB : B ≤ min (lkN t.lowlinks node) (lkN t.lowlinks succ) :=
          le_min hBlow (hQ succ hsuccstk)
        obtain ⟨t', hrun, hout⟩ := ihr node (tighten t node succ)
          hsubs' (tighten_good t node succ hG) (tighten_TQ t node succ B hQ hminB)
          hBi hvis hstk (by rw [tighten_low_node]; exact hminB)
          (by rw [tighten_TU]; exact hTU)
        refine ⟨t', hrun, SLout_comp g t (tighten t node succ) t' node B
          (le_refl _) (fun v i hv => hv)
          (fun v _ hvn => tighten_low_ne t node succ v hvn)
          (by rw [tighten_low_node]; exact min_le_left _ _)
          ⟨[], rfl, by simp⟩ (le_of_eq (tighten_TU g t node succ)) hout⟩
      · rw [if_neg hss]
        exact ihr node t hsubs' hG hQ hBi hvis hstk hBlow hTU
    · rw [if_neg hvs]
      have hnone : t.indices succ = none := by
        cases hs : t.indices succ with
        | none => rfl
        | some i => rw [hs] at hvs; simp at hvs
      obtain ⟨r, hr, hout⟩ := hsc succ t hG hQ hBi hnone
        (hsubs succ (List.mem_cons_self succ rest)) hTU
      rw [hr]
      simp only
      obtain ⟨oG, oQ, oI, oX, oNode, oLow, oBlow, oHigh, _oIff, oMatch⟩ := hout
      have hnodene : node ≠ succ := by
        intro hc
        rw [hc, hnone] at hvis
        simp at hvis
      have hlownode : lkN r.2.lowlinks node = lkN t.lowlinks node := by
        unfold lkN
        rw [oLow node hvis]
      have hvist2 : (r.2.indices node).isSome := by
        cases hs : t.indices node with
        | none => rw [hs] at hvis; simp at hvis
        | some i => rw [oX node i hs]; rfl
      have hstk2 : node ∈ r.2.vStack := by
        cases hres : r.1 with
        | some scc =>
          rw [hres] at oMatch
          rw [oMatch.1]
          exact hstk
        | none =>
          rw [hres] at oMatch
          obtain ⟨pre, hpre, _⟩ := oMatch
          rw [hpre]
          exact List.mem_append.mpr (Or.inr (List.mem_cons_of_mem succ hstk))
      have hstkshape : ∃ pre, r.2.vStack = pre ++ t.vStack ∧
          ∀ v ∈ pre, t.indices v = none := by
        cases hres : r.1 with
        | some scc =>
          rw [hres] at oMatch
          exact ⟨[], by rw [oMatch.1, List.nil_append], by simp⟩
        | none =>
          rw [hres] at oMatch
          obtain ⟨pre, hpre, hfresh⟩ := oMatch
          refine ⟨pre ++ [succ], by rw [hpre]; simp, ?_⟩
          intro v hv
          rcases List.mem_append.mp hv with hv | hv
          · exact hfresh v hv
          · rw [List.mem_singleton.mp hv]
            exact hnone
      have hTU2 : TU g r.2 ≤ TU g t := TU_mono g oX
      have hminB2 : B ≤ min (lkN r.2.lowlinks node) (lkN r.2.lowlinks succ) := by
        refine le_min ?_ oBlow
        rw [hlownode]
        exact hBlow
      obtain ⟨t', hrun, hout'⟩ := ihr node (tighten r.2 node succ)
        hsubs' (tighten_good r.2 node succ oG)
        (tighten_TQ r.2 node succ B oQ hminB2)
        (by rw [tighten_index]; exact hBi.trans oI)
        (by rw [tighten_indices]; exact hvist2)
        (by rw [tighten_vStack]; exact hstk2)
        (by rw [tighten_low_node]; exact hminB2)
        (by rw [tighten_TU]; exact hTU2.trans hTU)
      refine ⟨t', hrun, SLout_comp g t (tighten r.2 node succ) t' node B
        (by rw [tighten_index]; exact oI) ?_ ?_ ?_ ?_ ?_ hout'⟩
      · rw [tighten_indices]
        exact oX
      · intro v hv hvn
        rw [tighten_low_ne r.2 node succ v hvn]
        exact oLow v hv
      · rw [tighten_low_node, hlownode]
        exact min_le_left _ _
      · rw [tighten_vStack]
        exact hstkshape
      · rw [tighten_TU]
        exact hTU2

theorem pushState_good (s : TState) (node : Int) (hG : TGood s)
    (hnone : s.indices node = none) : TGood (pushState s node) := by
  have hnotin : node ∉ s.vStack := by
    intro hc
    have := hG.2.2 node hc
    rw [hnone] at this
    simp at this
  refine ⟨List.nodup_cons.mpr ⟨hnotin, hG.1⟩, ?_, ?_⟩
  · show insert node s.stackSet = (node :: s.vStack).toFinset
    rw [List.toFinset_cons, hG.2.1]
  · intro v hv
    show ((updN s.indices node s.index) v).isSome = true
    by_cases hvn : v = node
    · subst hvn
      rw [updN_self]
      rfl
    · rw [updN_ne s.indices node s.index v hvn]
      rcases List.mem_cons.mp hv with hc | hc
      · exact absurd hc hvn
      · exact hG.2.2 v hc

theorem pushState_TQ (s : TState) (node : Int) (B : Nat) (hQ : TQ s B)
    (hB : B ≤ s.index) (hnone : s.indices node = none) (hG : TGood s) :
    TQ (pushState s node) B := by
  intro v hv
  rcases List.mem_cons.mp hv with hc | hc
  · subst hc
    show B ≤ lkN (updN s.lowlinks v s.index) v
    rw [lkN_updN_self]
    exact hB
  · have hvn : v ≠ node := by
      intro hvn
      subst hvn
      have := hG.2.2 v hc
      rw [hnone] at this
      simp at this
    show B ≤ lkN (updN s.lowlinks node s.index) v
    rw [lkN_updN_ne s.lowlinks node s.index v hvn]
    exact hQ v hc

theorem pushState_TU_lt (g : Graph) (s : TState) (node : Int)
    (hn : node ∈ g.nodeList) (hnone : s.indices node = none) :
    TU g (pushState s node) < TU g s := by
  refine filter_length_strict _ _ ?_ g.nodeList node hn ?_ ?_
  · intro x hx
    by_cases hxn : x = node
    · subst hxn
      have h2 : ((pushState s x).indices x).isNone = true := hx
      rw [show (pushState s x).indices x = some s.index from
        updN_self s.indices x s.index] at h2
      simp at h2
    · have : (pushState s node).indices x = s.indices x :=
        updN_ne s.indices node s.index x hxn
      show (s.indices x).isNone = true
      rw [← this]
      exact hx
  · show (s.indices node).isNone = true
    rw [hnone]
    rfl
  · show ((pushState s node).indices node).isNone = false
    rw [show (pushState s node).indices node = some s.index from updN_self s.indices node s.index]
    rfl

theorem pushState_indices_self (s : TState) (node : Int) :
    (pushState s node).indices node = some s.index :=
  updN_self s.indices node s.index

theorem pushState_indices_ne (s : TState) (node v : Int) (h : v ≠ node) :
    (pushState s node).indices v = s.indices v :=
  updN_ne s.indices node s.index v h

theorem pushState_low_ne (s : TState) (node v : Int) (h : v ≠ node) :
    (pushState s node).lowlinks v = s.lowlinks v :=
  updN_ne s.lowlinks node s.index v h

theorem strongconnect_spec (g : Graph) (hcl : closedSucc g) :
    ∀ (fuel : Nat), ∀ (B : Nat) (node : Int) (s : TState),
      TGood s → TQ s B → B ≤ s.index →
      s.indices node = none → node ∈ g.nodeList → TU g s ≤ fuel →
      ∃ r, strongconnect g fuel node s = some r ∧ SCout s node B r.1 r.2 := by
  intro fuel
  induction fuel with
  | zero =>
    intro B node s _ _ _ hnone hn hTU
    exfalso
    have hmem : node ∈ g.nodeList.filter (fun n => (s.indices n).isNone) :=
      List.mem_filter.mpr ⟨hn, by rw [hnone]; rfl⟩
    have : 0 < TU g s := List.length_pos.mpr (List.ne_nil_of_mem hmem)
    omega
  | succ fuel ih =>
    intro B node s hG hQ hBi hnone hn hTU
    rw [strongconnect]
    have hpG : TGood (pushState s node) := pushState_good s node hG hnone
    have hpQ : TQ (pushState s node) B := pushState_TQ s node B hQ hBi hnone hG
    have hpTU : TU g (pushState s node) ≤ fuel := by
      have := pushState_TU_lt g s node hn hnone
      omega
    have hpidx : ((pushState s node).indices node).isSome = true := by
      rw [pushState_indices_self]
      rfl
    have hplow : lkN (pushState s node).lowlinks node = s.index :=
      lkN_updN_self s.lowlinks node s.index
    obtain ⟨t2, hsl, hout⟩ := succLoop_spec g B fuel (strongconnect g fuel)
      (fun n t a b c d e f => ih B n t a b c d e f)
      (g.successors node) node (pushState s node)
      (hcl node hn) hpG hpQ (by show B ≤ s.index + 1; omega)
      hpidx (List.mem_cons_self node s.vStack)
      (by rw [hplow]; exact hBi) hpTU
    simp only [hsl]
    obtain ⟨tG, tQ, tI, tX, tL, tLowLe, tBlow, _tMem, _tTU, pre, hpre, hfreshpre⟩ := hout
    have hidx2 : t2.indices node = some s.index :=
      tX node s.index (updN_self s.indices node s.index)
    have hlkidx : lkN t2.indices node = s.index := by
      rw [lkN, hidx2]
      rfl
    have hlowle : lkN t2.lowlinks node ≤ s.index := by
      rw [hplow] at tLowLe
      exact tLowLe
    have hpre_fresh_s : ∀ v ∈ pre, s.indices v = none := by
      intro v hv
      have hfp := hfreshpre v hv
      by_cases hvn : v = node
      · rw [hvn, pushState_indices_self] at hfp
        exact absurd hfp (by simp)
      · rw [pushState_indices_ne s node v hvn] at hfp
        exact hfp
    have hprestack : t2.vStack = pre ++ node :: s.vStack := hpre
    have hidxmono : ∀ v i, s.indices v = some i → t2.indices v = some i := by
      intro v i hv
      refine tX v i ?_
      by_cases hvn : v = node
      · rw [hvn, hnone] at hv
        exact absurd hv (by simp)
      · rw [pushState_indices_ne s node v hvn]
        exact hv
    have hlowpres : ∀ v, (s.indices v).isSome = true → t2.lowlinks v = s.lowlinks v := by
      intro v hv
      have hvn : v ≠ node := by
        intro hc
        rw [hc, hnone] at hv
        simp at hv
      have h1 : t2.lowlinks v = (pushState s node).lowlinks v := by
        refine tL v ?_ hvn
        rw [pushState_indices_ne s node v hvn]
        exact hv
      rw [h1]
      exact pushState_low_ne s node v hvn
    have hvisited : ∀ v ∈ t2.vStack, (t2.indices v).isSome := tG.2.2
    by_cases hcond : lkN t2.lowlinks node = lkN t2.indices node
    · rw [if_pos hcond]
      have hnodepre : node ∉ pre := by
        intro hc
        have hfp := hfreshpre node hc
        rw [pushState_indices_self] at hfp
        exact absurd hfp (by simp)
      have hnd : (pre ++ node :: s.vStack).Nodup := hprestack ▸ tG.1
      have hss2 : t2.stackSet = (pre ++ node :: s.vStack).toFinset := by
        rw [← hprestack]
        exact tG.2.1
      rw [hprestack, hss2, popSCC_spec node pre s.vStack
        ((pre ++ node :: s.vStack).toFinset) [] hnodepre hnd rfl]
      simp only [List.nil_append]
      refine ⟨(some (pre ++ [node]),
        { t2 with vStack := s.vStack, stackSet := s.vStack.toFinset }), rfl,
        ?_, ?_, ?_, hidxmono, hidx2, hlowpres, tBlow, hlowle, ?_, ?_⟩
      · refine ⟨?_, rfl, ?_⟩
        · have : ((pre ++ [node]) ++ s.vStack).Nodup := by
            rw [List.append_assoc, List.singleton_append]
            exact hnd
          exact (List.nodup_append.mp this).2.1
        · intro v hv
          have hvt2 : v ∈ t2.vStack := by
            rw [hprestack]
            exact List.mem_append.mpr (Or.inr (List.mem_cons_of_mem node hv))
          exact hvisited v hvt2
      · intro v hv
        have hvt2 : v ∈ t2.vStack := by
          rw [hprestack]
          exact List.mem_append.mpr (Or.inr (List.mem_cons_of_mem node hv))
        exact tQ v hvt2
      · show s.index ≤ t2.index
        have : (pushState s node).index = s.index + 1 := rfl
        omega
      · show (some (pre ++ [node])).isSome = true ↔ lkN t2.lowlinks node = s.index
        rw [hcond, hlkidx]
        simp
      · show s.vStack = s.vStack ∧ s.vStack.toFinset = s.stackSet ∧
          (pre ++ [node]).Nodup ∧ (∃ p, pre ++ [node] = p ++ [node]) ∧
          ∀ v ∈ pre ++ [node], s.indices v = none ∧ (t2.indices v).isSome = true
        refine ⟨rfl, hG.2.1.symm, ?_, ⟨pre, rfl⟩, ?_⟩
        · have : ((pre ++ [node]) ++ s.vStack).Nodup := by
            rw [List.append_assoc, List.singleton_append]
            exact hnd
          exact (List.nodup_append.mp this).1
        · intro v hv
          rcases List.mem_append.mp hv with hv | hv
          · refine ⟨hpre_fresh_s v hv, ?_⟩
            have hvt2 : v ∈ t2.vStack := by
              rw [hprestack]
              exact List.mem_append.mpr (Or.inl hv)
            exact hvisited v hvt2
          · rw [List.mem_singleton.mp hv]
            refine ⟨hnone, ?_⟩
            rw [hidx2]
            rfl
    · rw [if_neg hcond]
      refine ⟨(none, t2), rfl, tG, tQ, ?_, hidxmono, hidx2, hlowpres,
        tBlow, hlowle, ?_, ?_⟩
      · show s.index ≤ t2.index
        have : (pushState s node).index = s.index + 1 := rfl
        omega
      · show (none : Option (List Int)).isSome = true ↔
          lkN t2.lowlinks node = s.index
        rw [← hlkidx]
        simp only [Option.isSome_none, Bool.false_eq_true, false_iff]
        exact hcond
      · exact ⟨pre, hprestack, hpre_fresh_s⟩

theorem tarjanLoop_spec (g : Graph) (hcl : closedSucc g) (fuel : Nat) :
    ∀ (nodes : List Int) (sccs : List (List Int)) (s : TState),
      (∀ x ∈ nodes, x ∈ g.nodeList) →
      TGood s → s.vStack = [] →
      TU g s < fuel →
      sccs.flatten.Nodup →
      (∀ v ∈ sccs.flatten, (s.indices v).isSome) →
      (∀ c ∈ sccs, c ≠ [] ∧ ∃ n ∈ g.nodeList, n ∈ c) →
      ∃ out, tarjanLoop g fuel nodes sccs s = some out ∧
        out.flatten.Nodup ∧
        (∀ c ∈ out, c ≠ [] ∧ ∃ n ∈ g.nodeList, n ∈ c) := by
  intro nodes
  induction nodes with
  | nil =>
    intro sccs s _ _ _ _ hnd _ hcs
    exact ⟨sccs, rfl, hnd, hcs⟩
  | cons n rest ihn =>
    intro sccs s hmem hG hstk hfuel hnd hvis hcs
    rw [tarjanLoop]
    have hmem' : ∀ x ∈ rest, x ∈ g.nodeList :=
      fun x hx => hmem x (List.mem_cons_of_mem n hx)
    by_cases hvisn : (s.indices n).isSome = true
    · rw [if_pos hvisn]
      exact ihn sccs s hmem' hG hstk hfuel hnd hvis hcs
    · rw [if_neg hvisn]
      have hnone : s.indices n = none := by
        cases hs : s.indices n with
        | none => rfl
        | some i => rw [hs] at hvisn; simp at hvisn
      have hQ : TQ s s.index := by
        intro v hv
        rw [hstk] at hv
        exact absurd hv (List.not_mem_nil v)
      obtain ⟨r, hr, hout⟩ := strongconnect_spec g hcl fuel s.index n s
        hG hQ (le_refl _) hnone (hmem n (List.mem_cons_self n rest)) (by omega)
      simp only [hr]
      obtain ⟨oG, _oQ, _oI, oX, _oNode, _oLow, oBlow, oHigh, oIff, oMatch⟩ := hout
      have hsome : r.1.isSome = true := oIff.mpr (le_antisymm oHigh oBlow)
      cases hres : r.1 with
      | none => rw [hres] at hsome; simp at hsome
      | some scc =>
        rw [hres] at oMatch
        obtain ⟨hstk', _hss', hsccnd, ⟨p, hp⟩, hsccfresh⟩ := oMatch
        have hflat : (sccs ++ [scc]).flatten = sccs.flatten ++ scc := by
          rw [List.flatten_append]
          simp
        have hndnew : (sccs ++ [scc]).flatten.Nodup := by
          rw [hflat]
          rw [List.nodup_append]
          refine ⟨hnd, hsccnd, ?_⟩
          intro a ha hascc
          have h1 := hvis a ha
          have h2 := (hsccfresh a hascc).1
          rw [h2] at h1
          simp at h1
        have hvisnew : ∀ v ∈ (sccs ++ [scc]).flatten, (r.2.indices v).isSome := by
          rw [hflat]
          intro v hv
          rcases List.mem_append.mp hv with hv | hv
          · have h1 := hvis v hv
            cases hs : s.indices v with
            | none => rw [hs] at h1; simp at h1
            | some i => rw [oX v i hs]; rfl
          · exact (hsccfresh v hv).2
        have hcsnew : ∀ c ∈ sccs ++ [scc], c ≠ [] ∧ ∃ m ∈ g.nodeList, m ∈ c := by
          intro c hc
          rcases List.mem_append.mp hc with hc | hc
          · exact hcs c hc
          · rw [List.mem_singleton.mp hc]
            refine ⟨by rw [hp]; simp, n, hmem n (List.mem_cons_self n rest), ?_⟩
            rw [hp]
            exact List.mem_append.mpr (Or.inr (List.mem_singleton.mpr rfl))
        have hstk2 : r.2.vStack = [] := by rw [hstk', hstk]
        have hTU2 : TU g r.2 < fuel := by
          have := TU_mono g oX
          omega
        simp only [Option.getD_some]
        exact ihn (sccs ++ [scc]) r.2 hmem' oG hstk2 hTU2 hndnew hvisnew hcsnew

/-- C10: on a successor-closed graph the component lists `Tarjan`
returns are pairwise disjoint (no node is popped into two components, no
component repeats a node) and each non-empty: every top-level
`strongconnect` call starts on an empty stack, so its low-link equals
its discovery index and it returns a component containing its starting
node, a node of the graph's node list. -/
theorem tarjan_disjoint_nonempty (graph : Graph) (hcl : closedSucc graph) :
    ∃ sccs, Tarjan graph = some sccs ∧
      sccs.flatten.Nodup ∧
      List.Pairwise List.Disjoint sccs ∧
      ∀ c ∈ sccs, c ≠ [] ∧ ∃ n ∈ graph.nodeList, n ∈ c := by
  have hTUinit : TU graph tarjanInit < graph.nodeList.length + 1 := by
    have : TU graph tarjanInit ≤ graph.nodeList.length := by
      rw [TU]
      exact List.length_filter_le _ _
    omega
  obtain ⟨out, hrun, hnd, hcs⟩ := tarjanLoop_spec graph hcl
    (graph.nodeList.length + 1) graph.nodeList [] tarjanInit
    (fun x hx => hx)
    ⟨List.nodup_nil, by simp [tarjanInit], fun v hv => absurd hv (List.not_mem_nil v)⟩
    rfl hTUinit List.nodup_nil
    (fun v hv => absurd hv (List.not_mem_nil v))
    (fun c hc => absurd hc (List.not_mem_nil c))
  refine ⟨out, hrun, hnd, ?_, hcs⟩
  exact (List.nodup_flatten.mp hnd).2

/-- Witness for C10 at the concrete two-node graph. -/
theorem tarjan_disjoint_nonempty_witness :
    ∃ sccs, Tarjan wG = some sccs ∧
      sccs.flatten.Nodup ∧
      List.Pairwise List.Disjoint sccs ∧
      ∀ c ∈ sccs, c ≠ [] ∧ ∃ n ∈ wG.nodeList, n ∈ c :=
  tarjan_disjoint_nonempty wG
    (by
      show ∀ n ∈ wG.nodeList, ∀ m ∈ wG.successors n, m ∈ wG.nodeList
      decide)

/-- C1 evaluation: on the two-node graph with the single edge 1 -> 2,
`Tarjan` returns only the component [1]: the nested call that closed the
component [2] had its return value discarded (graph.go line 94), so node
2 is listed but appears in no returned component. -/
theorem tarjan_drops_nested_component :
    Tarjan wG = some [[1]] ∧ (2 : Int) ∈ wG.nodeList ∧
      ∀ c ∈ [[(1 : Int)]], (2 : Int) ∉ c := by
  refine ⟨by decide, by decide, by decide⟩

end Discrete
